import Mathlib

/-!
Verification of the scikit-rt registration/simulation specification.

The development embeds, in Lean 4, the data model and operations of:

* the elastix **parameter codec** (`read_parameters`, `write_parameters`,
  `adjust_parameters`, `shift_translation_parameters`);
* the **pipeline state manager / registration orchestrator**
  (`Registration`: working-directory layout, step bookkeeping, `register`,
  `already_performed`, `transform` on structure sets);
* the **synthetic image** generator of `skrt/simulation.py`
  (`SyntheticImage`, `add_shape`, `add_cube`, `add_cuboid`, `get_roi`).

`skrt/registration.py` itself is not part of the source tree available here
(only its test suite is), so the codec and pipeline definitions are modelled
from the specification's description of those operations; the simulation
definitions are translated directly from `src/skrt/simulation.py`.
-/

namespace SkrtSpec

/-! ## Decimal digit machinery (used by the parameter codec) -/

/-- Base-10 digits with explicit fuel, least-significant first; `[]` for 0.
The fuel only needs to be at least the argument for the result to be the
full digit list. -/
def natDigitsRevCore : Nat → Nat → List Nat
  | _, 0 => []
  | 0, _ + 1 => []
  | fuel + 1, n + 1 => (n + 1) % 10 :: natDigitsRevCore fuel ((n + 1) / 10)

/-- Base-10 digits of a natural number, least-significant first; `[]` for 0. -/
def natDigitsRev (n : Nat) : List Nat :=
  natDigitsRevCore n n

/-- Value of a least-significant-first digit list. -/
def valRev : List Nat → Nat
  | [] => 0
  | d :: ds => d + 10 * valRev ds

/-- Value of a most-significant-first digit list. -/
def valM (l : List Nat) : Nat :=
  l.foldl (fun a d => 10 * a + d) 0

/-- Most-significant-first digits of a natural number; `[]` for 0. -/
def natDigitsM (n : Nat) : List Nat :=
  (natDigitsRev n).reverse

/-- Pad a most-significant-first digit list with leading zeros to length `len`. -/
def padTo (len : Nat) (l : List Nat) : List Nat :=
  List.replicate (len - l.length) 0 ++ l

theorem valRev_natDigitsRevCore (fuel : Nat) :
    ∀ n, n ≤ fuel → valRev (natDigitsRevCore fuel n) = n := by
  induction fuel with
  | zero =>
    intro n h
    interval_cases n
    rfl
  | succ f ih =>
    intro n h
    match n with
    | 0 => rfl
    | m + 1 =>
      show valRev ((m + 1) % 10 :: natDigitsRevCore f ((m + 1) / 10)) = m + 1
      simp only [valRev]
      rw [ih ((m + 1) / 10) (by omega)]
      omega

theorem valRev_natDigitsRev (n : Nat) : valRev (natDigitsRev n) = n :=
  valRev_natDigitsRevCore n n le_rfl

theorem mem_natDigitsRevCore_lt (fuel : Nat) :
    ∀ n, ∀ d ∈ natDigitsRevCore fuel n, d < 10 := by
  induction fuel with
  | zero =>
    intro n d hd
    match n with
    | 0 => cases hd
    | m + 1 => cases hd
  | succ f ih =>
    intro n d hd
    match n with
    | 0 => cases hd
    | m + 1 =>
      rcases List.mem_cons.1 hd with h1 | h2
      · subst h1
        exact Nat.mod_lt _ (by decide)
      · exact ih ((m + 1) / 10) d h2

theorem mem_natDigitsRev_lt (n : Nat) : ∀ d ∈ natDigitsRev n, d < 10 :=
  mem_natDigitsRevCore_lt n n

theorem valM_from (a : Nat) (l : List Nat) :
    l.foldl (fun a d => 10 * a + d) a = a * 10 ^ l.length + valM l := by
  induction l generalizing a with
  | nil => simp [valM]
  | cons d ds ih =>
    simp only [List.foldl_cons, valM, Nat.mul_zero, Nat.zero_add] at *
    rw [ih (10 * a + d), ih d, List.length_cons, pow_succ]
    ring

theorem valM_append (l1 l2 : List Nat) :
    valM (l1 ++ l2) = valM l1 * 10 ^ l2.length + valM l2 := by
  unfold valM
  rw [List.foldl_append, valM_from]
  rfl

theorem valM_replicate_zero (k : Nat) : valM (List.replicate k 0) = 0 := by
  induction k with
  | zero => rfl
  | succ k ih =>
    unfold valM at *
    simp [List.replicate_succ, ih]

theorem valM_padTo (len : Nat) (l : List Nat) : valM (padTo len l) = valM l := by
  unfold padTo
  rw [valM_append, valM_replicate_zero]
  simp

theorem valM_reverse_valRev (l : List Nat) : valM l.reverse = valRev l := by
  induction l with
  | nil => rfl
  | cons d ds ih =>
    simp only [List.reverse_cons, valM_append, ih, valRev]
    simp [valM]
    ring

theorem valM_natDigitsM (n : Nat) : valM (natDigitsM n) = n := by
  rw [natDigitsM, valM_reverse_valRev, valRev_natDigitsRev]

theorem mem_natDigitsM_lt (n : Nat) : ∀ d ∈ natDigitsM n, d < 10 := by
  intro d hd
  exact mem_natDigitsRev_lt n d (List.mem_reverse.1 hd)

theorem mem_padTo_lt (len : Nat) (l : List Nat) (hl : ∀ d ∈ l, d < 10) :
    ∀ d ∈ padTo len l, d < 10 := by
  intro d hd
  rcases List.mem_append.1 hd with h | h
  · have := List.eq_of_mem_replicate h
    omega
  · exact hl d h

/-! ## Tokens: character-level encoding of scalar values -/

/-- Character for a decimal digit. -/
def digitChar (d : Nat) : Char := Char.ofNat (48 + d)

/-- Numeric value of a digit character. -/
def charVal (c : Char) : Nat := c.toNat - 48

/-- Is `c` one of the characters `0`..`9`? -/
def isDigitChar (c : Char) : Bool := 48 ≤ c.toNat && c.toNat ≤ 57

/-- Value of a list of digit characters, most significant first. -/
def charsNat (cs : List Char) : Nat :=
  cs.foldl (fun a c => 10 * a + charVal c) 0

/-- Character rendering of a natural number (`0` renders as `"0"`). -/
def natToChars (n : Nat) : List Char :=
  if n = 0 then ['0'] else (natDigitsM n).map digitChar

/-- Character rendering of an integer, with a leading `-` when negative. -/
def intToChars (i : Int) : List Char :=
  if i < 0 then '-' :: natToChars i.natAbs else natToChars i.natAbs

/-- Digit string of `|m|`, padded with leading zeros so at least one digit
stands before the decimal point of `m / 10^e`. -/
def floatDigits (m : Int) (e : Nat) : List Nat :=
  padTo (e + 1) (natDigitsM m.natAbs)

/-- The digits of `m / 10^e` standing before the decimal point. -/
def floatIntDigits (m : Int) (e : Nat) : List Nat :=
  (floatDigits m e).take ((floatDigits m e).length - e)

/-- The `e` digits of `m / 10^e` standing behind the decimal point. -/
def floatFracDigits (m : Int) (e : Nat) : List Nat :=
  (floatDigits m e).drop ((floatDigits m e).length - e)

/-- Character rendering of the decimal number `m / 10^e`.
Matches Python `str` on floats, e.g. `(4, 1) ↦ "0.4"`, `(50, 1) ↦ "5.0"`. -/
def floatToChars (m : Int) (e : Nat) : List Char :=
  (if m < 0 then ['-'] else []) ++ (floatIntDigits m e).map digitChar
    ++ '.' :: (floatFracDigits m e).map digitChar

theorem charVal_digitChar (d : Nat) (h : d < 10) : charVal (digitChar d) = d := by
  interval_cases d <;> rfl

theorem isDigitChar_digitChar (d : Nat) (h : d < 10) :
    isDigitChar (digitChar d) = true := by
  interval_cases d <;> rfl

theorem digitChar_ne_dot (d : Nat) (h : d < 10) : digitChar d ≠ '.' := by
  interval_cases d <;> decide

theorem foldl_charVal_map (l : List Nat) (hl : ∀ d ∈ l, d < 10) (a : Nat) :
    List.foldl (fun a c => 10 * a + charVal c) a (l.map digitChar)
      = List.foldl (fun a d => 10 * a + d) a l := by
  induction l generalizing a with
  | nil => rfl
  | cons d ds ih =>
    simp only [List.map_cons, List.foldl_cons]
    rw [charVal_digitChar d (hl d (List.mem_cons_self d ds))]
    exact ih (fun x hx => hl x (List.mem_cons_of_mem _ hx)) _

theorem charsNat_map_digitChar (l : List Nat) (hl : ∀ d ∈ l, d < 10) :
    charsNat (l.map digitChar) = valM l :=
  foldl_charVal_map l hl 0

theorem charsNat_natToChars (n : Nat) : charsNat (natToChars n) = n := by
  unfold natToChars
  by_cases h : n = 0
  · simp [h]; rfl
  · rw [if_neg h, charsNat_map_digitChar _ (mem_natDigitsM_lt n), valM_natDigitsM]

/-! ## Scalar values of the parameter-file format

Modelled from the spec: `skrt/registration.py` is absent from the source
tree; the spec describes an ordered mapping from string keys to typed values
in \x7bboolean, integer, float, string, list-of-scalars\x7d, with per-token
typing on read (boolean keywords, else integer when the bare numeral has no
decimal point, else float, else string with surrounding quotes stripped). -/

/-- A scalar value of the parameter format.  A float is stored as its exact
decimal representation `m / 10^e` (mantissa and number of digits behind the
decimal point). -/
inductive PScalar
  | bool (b : Bool)
  | int (i : Int)
  | float (m : Int) (e : Nat)
  | str (s : String)
deriving DecidableEq, Repr

/-- Strip one leading `-` sign, reporting whether it was present. -/
def splitSign (t : List Char) : Bool × List Char :=
  match t with
  | c :: rest => if c = '-' then (true, rest) else (false, t)
  | [] => (false, [])

/-- A nonempty all-digit token. -/
def digitsOnly (cs : List Char) : Bool :=
  !cs.isEmpty && cs.all isDigitChar

/-- Split a token at its unique `.`; `none` if there is no dot or more
than one. -/
def splitDot (cs : List Char) : Option (List Char × List Char) :=
  match cs.dropWhile (fun c => c != '.') with
  | c :: b =>
    if c = '.' ∧ b.any (fun x => x == '.') = false then
      some (cs.takeWhile (fun c => c != '.'), b)
    else none
  | [] => none

/-- Strip one pair of surrounding double quotes, when present. -/
def stripQuotes (cs : List Char) : List Char :=
  if 2 ≤ cs.length ∧ cs.head? = some '"' ∧ cs.getLast? = some '"' then
    (cs.drop 1).dropLast
  else cs

/-- Apply an optional sign to a parsed magnitude. -/
def intOfSign (neg : Bool) (n : Nat) : Int :=
  if neg then -(n : Int) else (n : Int)

/-- Modelled from the spec: the per-token typing rule of `read_parameters` —
boolean keywords decode to booleans, a bare numeral without a decimal point
to an integer, a numeral with a decimal point to a float, anything else to
the literal string with surrounding quotes stripped. -/
def decodeToken (t : List Char) : PScalar :=
  if t = ['t', 'r', 'u', 'e'] then PScalar.bool true
  else if t = ['f', 'a', 'l', 's', 'e'] then PScalar.bool false
  else if digitsOnly (splitSign t).2 then
    PScalar.int (intOfSign (splitSign t).1 (charsNat (splitSign t).2))
  else
    match splitDot (splitSign t).2 with
    | some ab =>
      if !ab.2.isEmpty && ab.1.all isDigitChar && digitsOnly ab.2 then
        PScalar.float (intOfSign (splitSign t).1 (charsNat (ab.1 ++ ab.2))) ab.2.length
      else PScalar.str (String.mk (stripQuotes t))
    | none => PScalar.str (String.mk (stripQuotes t))

/-- Modelled from the spec: the inverse typing rule of `write_parameters` —
booleans as bare keywords, integers and floats as decimal numerals (floats
always carrying a decimal point), strings double-quoted. -/
def encodeScalar : PScalar → List Char
  | PScalar.bool true => ['t', 'r', 'u', 'e']
  | PScalar.bool false => ['f', 'a', 'l', 's', 'e']
  | PScalar.int i => intToChars i
  | PScalar.float m e => floatToChars m e
  | PScalar.str s => '"' :: (s.toList ++ ['"'])

/-- Characters allowed inside a representable string value: anything that
does not collide with the textual format (whitespace, quotes, parens). -/
def goodStrChar (c : Char) : Bool :=
  !(c == ' ' || c == '"' || c == '(' || c == ')' || c == '\n' || c == '\t')

/-- A scalar representable in the textual format: floats carry at least one
digit behind the decimal point (as Python `str` prints them), strings avoid
the format's delimiter characters. -/
def scalarRepr : PScalar → Bool
  | PScalar.bool _ => true
  | PScalar.int _ => true
  | PScalar.float _ e => e != 0
  | PScalar.str s => s.toList.all goodStrChar

/-! ### Token round-trip lemmas -/

theorem natToChars_all_digit (n : Nat) :
    ∀ c ∈ natToChars n, isDigitChar c = true := by
  unfold natToChars
  by_cases h : n = 0
  · simp [h]; decide
  · rw [if_neg h]
    intro c hc
    obtain ⟨d, hd, rfl⟩ := List.mem_map.1 hc
    exact isDigitChar_digitChar d (mem_natDigitsM_lt n d hd)

theorem natToChars_ne_nil (n : Nat) : natToChars n ≠ [] := by
  unfold natToChars
  by_cases h : n = 0
  · simp [h]
  · rw [if_neg h]
    intro hmap
    have : natDigitsM n = [] := List.map_eq_nil_iff.1 hmap
    have hv := valM_natDigitsM n
    rw [this] at hv
    exact h (by simpa [valM] using hv.symm)

theorem digitsOnly_natToChars (n : Nat) : digitsOnly (natToChars n) = true := by
  unfold digitsOnly
  rw [Bool.and_eq_true, List.all_eq_true]
  constructor
  · simpa [List.isEmpty_iff] using natToChars_ne_nil n
  · exact natToChars_all_digit n

theorem all_digit_ne_true_tok (t : List Char)
    (h : ∀ c ∈ t, isDigitChar c = true) : t ≠ ['t', 'r', 'u', 'e'] := by
  intro heq
  have : isDigitChar 't' = true := h 't' (by rw [heq]; decide)
  exact absurd this (by decide)

theorem all_digit_ne_false_tok (t : List Char)
    (h : ∀ c ∈ t, isDigitChar c = true) : t ≠ ['f', 'a', 'l', 's', 'e'] := by
  intro heq
  have : isDigitChar 'f' = true := h 'f' (by rw [heq]; decide)
  exact absurd this (by decide)

theorem splitSign_of_digits (t : List Char) (hne : t ≠ [])
    (h : ∀ c ∈ t, isDigitChar c = true) : splitSign t = (false, t) := by
  match t with
  | [] => exact absurd rfl hne
  | c :: rest =>
    have hc : isDigitChar c = true := h c (List.mem_cons_self c rest)
    simp only [splitSign]
    rw [if_neg]
    intro hdash
    rw [hdash] at hc
    exact absurd hc (by decide)

theorem splitSign_neg (rest : List Char) : splitSign ('-' :: rest) = (true, rest) := by
  simp [splitSign]

/-- Decoding an encoded integer restores it. -/
theorem decodeToken_intToChars (i : Int) :
    decodeToken (intToChars i) = PScalar.int i := by
  unfold intToChars
  by_cases hi : i < 0
  · rw [if_pos hi]
    unfold decodeToken
    rw [if_neg, if_neg]
    · rw [splitSign_neg]
      rw [if_pos (digitsOnly_natToChars _)]
      have habs : -((i.natAbs : Int)) = i := by omega
      simp [intOfSign, charsNat_natToChars, habs, abs_of_neg hi]
    · intro h; cases h
    · intro h; cases h
  · rw [if_neg hi]
    unfold decodeToken
    rw [if_neg (all_digit_ne_true_tok _ (natToChars_all_digit _)),
        if_neg (all_digit_ne_false_tok _ (natToChars_all_digit _)),
        splitSign_of_digits _ (natToChars_ne_nil _) (natToChars_all_digit _)]
    rw [if_pos (digitsOnly_natToChars _)]
    have habs : ((i.natAbs : Int)) = i := by omega
    simp [intOfSign, charsNat_natToChars, habs]

theorem splitSign_not_dash (c : Char) (rest : List Char) (h : c ≠ '-') :
    splitSign (c :: rest) = (false, c :: rest) := by
  simp only [splitSign]
  rw [if_neg h]

theorem splitSign_head_digit (c : Char) (rest : List Char)
    (h : isDigitChar c = true) : splitSign (c :: rest) = (false, c :: rest) := by
  apply splitSign_not_dash
  intro h0
  rw [h0] at h
  exact absurd h (by decide)

theorem digitsOnly_false_of_mem (t : List Char) (c : Char) (hc : c ∈ t)
    (h : isDigitChar c = false) : digitsOnly t = false := by
  have hall : t.all isDigitChar = false := by
    cases h1 : t.all isDigitChar with
    | false => rfl
    | true =>
      rw [List.all_eq_true] at h1
      rw [h1 c hc] at h
      cases h
  simp [digitsOnly, hall]

theorem bne_dot_of_digit (c : Char) (h : isDigitChar c = true) :
    (c != '.') = true := by
  rw [bne_iff_ne]
  intro hc
  rw [hc] at h
  exact absurd h (by decide)

theorem dropWhile_all_append (p : Char → Bool) (l1 l2 : List Char)
    (h : ∀ c ∈ l1, p c = true) :
    (l1 ++ l2).dropWhile p = l2.dropWhile p := by
  induction l1 with
  | nil => rfl
  | cons c cs ih =>
    rw [List.cons_append, List.dropWhile_cons, h c (List.mem_cons_self c cs)]
    simp only [if_true]
    exact ih (fun x hx => h x (List.mem_cons_of_mem _ hx))

theorem takeWhile_all_append (p : Char → Bool) (l1 l2 : List Char)
    (h : ∀ c ∈ l1, p c = true) :
    (l1 ++ l2).takeWhile p = l1 ++ l2.takeWhile p := by
  induction l1 with
  | nil => rfl
  | cons c cs ih =>
    rw [List.cons_append, List.takeWhile_cons, h c (List.mem_cons_self c cs)]
    simp only [if_true, List.cons_append]
    rw [ih (fun x hx => h x (List.mem_cons_of_mem _ hx))]

theorem any_dot_false (l : List Char) (h : ∀ c ∈ l, isDigitChar c = true) :
    l.any (fun x => x == '.') = false := by
  cases h1 : l.any (fun x => x == '.') with
  | false => rfl
  | true =>
    rw [List.any_eq_true] at h1
    obtain ⟨c, hc, hceq⟩ := h1
    have hc2 : c = '.' := by simpa using hceq
    rw [hc2] at hc
    have := h '.' hc
    exact absurd this (by decide)

theorem splitDot_digits (ip fp : List Char)
    (hip : ∀ c ∈ ip, isDigitChar c = true)
    (hfp : ∀ c ∈ fp, isDigitChar c = true) :
    splitDot (ip ++ '.' :: fp) = some (ip, fp) := by
  have hne : ∀ c ∈ ip, (c != '.') = true := fun c hc => bne_dot_of_digit c (hip c hc)
  unfold splitDot
  have hdot : (('.' : Char) != '.') = false := by decide
  rw [dropWhile_all_append _ _ _ hne, List.dropWhile_cons, hdot]
  rw [if_neg (by decide : ¬ (false = true))]
  show (if ('.' : Char) = '.' ∧ (fp.any fun x => x == '.') = false then
      some (List.takeWhile (fun c => c != '.') (ip ++ '.' :: fp), fp)
    else none) = some (ip, fp)
  rw [if_pos ⟨rfl, any_dot_false fp hfp⟩,
      takeWhile_all_append _ _ _ hne, List.takeWhile_cons, hdot]
  rw [if_neg (by decide : ¬ (false = true))]
  simp

/-- Every character of the unsigned body of a rendered float is a digit or
the decimal point. -/
theorem float_body_chars (m : Int) (e : Nat) :
    ∀ c ∈ (floatIntDigits m e).map digitChar
        ++ '.' :: (floatFracDigits m e).map digitChar,
      isDigitChar c = true ∨ c = '.' := by
  intro c hc
  have hdig : ∀ d ∈ floatDigits m e, d < 10 :=
    mem_padTo_lt _ _ (mem_natDigitsM_lt _)
  rcases List.mem_append.1 hc with h | h
  · obtain ⟨d, hd, rfl⟩ := List.mem_map.1 h
    have : d ∈ floatDigits m e := by
      have := List.take_append_drop ((floatDigits m e).length - e) (floatDigits m e)
      rw [← this]
      exact List.mem_append_left _ hd
    exact Or.inl (isDigitChar_digitChar d (hdig d this))
  · rcases List.mem_cons.1 h with h2 | h2
    · exact Or.inr h2
    · obtain ⟨d, hd, rfl⟩ := List.mem_map.1 h2
      have : d ∈ floatDigits m e := by
        have := List.take_append_drop ((floatDigits m e).length - e) (floatDigits m e)
        rw [← this]
        exact List.mem_append_right _ hd
      exact Or.inl (isDigitChar_digitChar d (hdig d this))

theorem token_ne_bool_of_chars (t : List Char)
    (h : ∀ c ∈ t, isDigitChar c = true ∨ c = '-' ∨ c = '.') :
    t ≠ ['t', 'r', 'u', 'e'] ∧ t ≠ ['f', 'a', 'l', 's', 'e'] := by
  constructor <;> intro heq
  · have := h 'r' (by rw [heq]; decide)
    rcases this with h1 | h1 | h1 <;> exact absurd h1 (by decide)
  · have := h 'a' (by rw [heq]; decide)
    rcases this with h1 | h1 | h1 <;> exact absurd h1 (by decide)

theorem floatDigits_len (m : Int) (e : Nat) : e + 1 ≤ (floatDigits m e).length := by
  unfold floatDigits padTo
  rw [List.length_append, List.length_replicate]
  omega

theorem floatIntDigits_ne_nil (m : Int) (e : Nat) : floatIntDigits m e ≠ [] := by
  have hlen := floatDigits_len m e
  unfold floatIntDigits
  intro h0
  have := congrArg List.length h0
  rw [List.length_take] at this
  simp at this
  omega

theorem floatFracDigits_len (m : Int) (e : Nat) : (floatFracDigits m e).length = e := by
  have hlen := floatDigits_len m e
  unfold floatFracDigits
  rw [List.length_drop]
  omega

theorem floatDigits_lt (m : Int) (e : Nat) : ∀ d ∈ floatDigits m e, d < 10 := by
  unfold floatDigits
  exact mem_padTo_lt _ _ (mem_natDigitsM_lt _)

theorem floatIntDigits_lt (m : Int) (e : Nat) : ∀ d ∈ floatIntDigits m e, d < 10 := by
  intro d hd
  apply floatDigits_lt m e
  have h2 := List.take_append_drop ((floatDigits m e).length - e) (floatDigits m e)
  rw [← h2]
  exact List.mem_append_left _ hd

theorem floatFracDigits_lt (m : Int) (e : Nat) : ∀ d ∈ floatFracDigits m e, d < 10 := by
  intro d hd
  apply floatDigits_lt m e
  have h2 := List.take_append_drop ((floatDigits m e).length - e) (floatDigits m e)
  rw [← h2]
  exact List.mem_append_right _ hd

theorem charsNat_float_body (m : Int) (e : Nat) :
    charsNat ((floatIntDigits m e).map digitChar ++ (floatFracDigits m e).map digitChar)
      = m.natAbs := by
  rw [← List.map_append]
  have hcat : floatIntDigits m e ++ floatFracDigits m e = floatDigits m e :=
    List.take_append_drop _ _
  rw [hcat, charsNat_map_digitChar _ (floatDigits_lt m e)]
  unfold floatDigits
  rw [valM_padTo, valM_natDigitsM]

/-- Decoding a token whose sign-split yields the digit body of the float
`m / 10^e` produces the float scalar with magnitude `|m|`. -/
theorem decodeToken_float_body (m : Int) (e : Nat) (he : e ≠ 0) (t : List Char)
    (sgn : Bool)
    (hne1 : t ≠ ['t', 'r', 'u', 'e']) (hne2 : t ≠ ['f', 'a', 'l', 's', 'e'])
    (hsp : splitSign t
      = (sgn, (floatIntDigits m e).map digitChar
          ++ '.' :: (floatFracDigits m e).map digitChar)) :
    decodeToken t = PScalar.float (intOfSign sgn m.natAbs) e := by
  have hipchars : ∀ c ∈ (floatIntDigits m e).map digitChar, isDigitChar c = true := by
    intro c hc
    obtain ⟨d, hd, rfl⟩ := List.mem_map.1 hc
    exact isDigitChar_digitChar d (floatIntDigits_lt m e d hd)
  have hfpchars : ∀ c ∈ (floatFracDigits m e).map digitChar, isDigitChar c = true := by
    intro c hc
    obtain ⟨d, hd, rfl⟩ := List.mem_map.1 hc
    exact isDigitChar_digitChar d (floatFracDigits_lt m e d hd)
  unfold decodeToken
  rw [if_neg hne1, if_neg hne2, hsp]
  dsimp only
  rw [digitsOnly_false_of_mem _ '.'
        (List.mem_append_right _ (List.mem_cons_self _ _)) (by decide)]
  rw [if_neg (by decide : ¬ (false = true))]
  rw [splitDot_digits _ _ hipchars hfpchars]
  dsimp only
  have hfpne : (floatFracDigits m e).map digitChar ≠ [] := by
    intro h0
    have hl := congrArg List.length h0
    rw [List.length_map, floatFracDigits_len] at hl
    simp at hl
    exact he hl
  have hemp : ((floatFracDigits m e).map digitChar).isEmpty = false := by
    simpa [List.isEmpty_iff] using hfpne
  have hdo : digitsOnly ((floatFracDigits m e).map digitChar) = true := by
    unfold digitsOnly
    rw [hemp, List.all_eq_true.2 hfpchars]
    rfl
  rw [hemp, List.all_eq_true.2 hipchars, hdo]
  rw [if_pos (show (!false && true && true) = true from rfl)]
  rw [charsNat_float_body, List.length_map, floatFracDigits_len]

/-- Decoding an encoded float restores the mantissa and exponent exactly,
provided at least one digit stands behind the decimal point. -/
theorem decodeToken_floatToChars (m : Int) (e : Nat) (he : e ≠ 0) :
    decodeToken (floatToChars m e) = PScalar.float m e := by
  have hnebool := token_ne_bool_of_chars (floatToChars m e) (by
    intro c hc
    unfold floatToChars at hc
    rcases List.mem_append.1 hc with h | h
    · rcases List.mem_append.1 h with h1 | h1
      · by_cases hm : m < 0
        · rw [if_pos hm] at h1
          rcases List.mem_singleton.1 h1 with rfl
          exact Or.inr (Or.inl rfl)
        · rw [if_neg hm] at h1
          cases h1
      · obtain ⟨d, hd, rfl⟩ := List.mem_map.1 h1
        exact Or.inl (isDigitChar_digitChar d (floatIntDigits_lt m e d hd))
    · rcases List.mem_cons.1 h with h2 | h2
      · exact Or.inr (Or.inr h2)
      · obtain ⟨d, hd, rfl⟩ := List.mem_map.1 h2
        exact Or.inl (isDigitChar_digitChar d (floatFracDigits_lt m e d hd)))
  by_cases hm : m < 0
  · have hsp : splitSign (floatToChars m e)
        = (true, (floatIntDigits m e).map digitChar
            ++ '.' :: (floatFracDigits m e).map digitChar) := by
      unfold floatToChars
      rw [if_pos hm]
      exact splitSign_neg _
    rw [decodeToken_float_body m e he _ true hnebool.1 hnebool.2 hsp]
    unfold intOfSign
    rw [if_pos rfl]
    have habs : -((m.natAbs : Int)) = m := by omega
    rw [habs]
  · obtain ⟨d0, ip', hip0⟩ := List.exists_cons_of_ne_nil (floatIntDigits_ne_nil m e)
    have hd0 : isDigitChar (digitChar d0) = true :=
      isDigitChar_digitChar d0
        (floatIntDigits_lt m e d0 (by rw [hip0]; exact List.mem_cons_self _ _))
    have hsp : splitSign (floatToChars m e)
        = (false, (floatIntDigits m e).map digitChar
            ++ '.' :: (floatFracDigits m e).map digitChar) := by
      unfold floatToChars
      rw [if_neg hm, List.nil_append, hip0, List.map_cons, List.cons_append]
      rw [splitSign_head_digit _ _ hd0]
    rw [decodeToken_float_body m e he _ false hnebool.1 hnebool.2 hsp]
    unfold intOfSign
    rw [if_neg (by decide : ¬ (false = true))]
    have habs : ((m.natAbs : Int)) = m := by omega
    rw [habs]

theorem splitDot_fst (cs : List Char) (ab : List Char × List Char)
    (h : splitDot cs = some ab) :
    ab.1 = cs.takeWhile (fun c => c != '.') := by
  unfold splitDot at h
  split at h
  · split at h
    · injection h with h2
      exact (congrArg Prod.fst h2).symm
    · exact Option.noConfusion h
  · exact Option.noConfusion h

theorem stripQuotes_quoted (l : List Char) :
    stripQuotes ('"' :: (l ++ ['"'])) = l := by
  unfold stripQuotes
  rw [if_pos]
  · show (l ++ ['"']).dropLast = l
    rw [List.dropLast_concat]
  · refine ⟨?_, rfl, ?_⟩
    · simp
    · show ('"' :: l ++ ['"']).getLast? = some '"'
      rw [List.getLast?_concat]

/-- Decoding an encoded (quoted) string restores it. -/
theorem decodeToken_strToken (s : String) :
    decodeToken ('"' :: (s.toList ++ ['"'])) = PScalar.str s := by
  have hne1 : ('"' :: (s.toList ++ ['"'])) ≠ ['t', 'r', 'u', 'e'] := by
    intro h
    have h2 := congrArg List.head? h
    simp at h2
  have hne2 : ('"' :: (s.toList ++ ['"'])) ≠ ['f', 'a', 'l', 's', 'e'] := by
    intro h
    have h2 := congrArg List.head? h
    simp at h2
  unfold decodeToken
  rw [if_neg hne1, if_neg hne2]
  rw [splitSign_not_dash _ _ (by decide)]
  dsimp only
  rw [digitsOnly_false_of_mem _ '"' (List.mem_cons_self _ _) (by decide)]
  rw [if_neg (by decide : ¬ (false = true))]
  cases hsd : splitDot ('"' :: (s.toList ++ ['"'])) with
  | none =>
    rw [stripQuotes_quoted]
    rfl
  | some ab =>
    have hfst : ab.1 = ('"' :: (s.toList ++ ['"'])).takeWhile (fun c => c != '.') :=
      splitDot_fst _ _ hsd
    have hcons : ab.1 = '"' :: (s.toList ++ ['"']).takeWhile (fun c => c != '.') := by
      rw [hfst, List.takeWhile_cons, show (('"' : Char) != '.') = true by decide]
      simp
    have hallf : ab.1.all isDigitChar = false := by
      rw [hcons, List.all_cons, show isDigitChar '"' = false by decide]
      rfl
    dsimp only
    rw [hallf]
    rw [show ∀ x y : Bool, (x && false && y) = false by decide]
    rw [if_neg (by decide : ¬ (false = true))]
    rw [stripQuotes_quoted]
    rfl

/-- Per-token round trip: decoding an encoded representable scalar restores
it exactly, type included. -/
theorem decodeToken_encodeScalar (s : PScalar) (h : scalarRepr s = true) :
    decodeToken (encodeScalar s) = s := by
  cases s with
  | bool b => cases b <;> rfl
  | int i => exact decodeToken_intToChars i
  | float m e =>
    have he : e ≠ 0 := by simpa [scalarRepr] using h
    exact decodeToken_floatToChars m e he
  | str s => exact decodeToken_strToken s

/-! ## Values, records and files of the parameter format -/

/-- A value of the parameter format: a scalar or a list of scalars. -/
inductive PValue
  | scalar (s : PScalar)
  | list (l : List PScalar)
deriving DecidableEq, Repr

/-- An ordered, typed parameter set (the Python insertion-ordered dict). -/
abbrev ParameterSet := List (String × PValue)

/-- A line of a parameter file: a `(key value...)` record, kept as its key
and value tokens, or a passthrough line (comment / formatting). -/
inductive FLine
  | record (key : String) (tokens : List (List Char))
  | comment (text : String)
deriving DecidableEq, Repr

/-- Modelled from the spec: the tokens written for one value — one token
for a scalar, the scalar tokens in order for a list. -/
def encodeValue : PValue → List (List Char)
  | PValue.scalar s => [encodeScalar s]
  | PValue.list l => l.map encodeScalar

/-- Modelled from the spec: value typing of a record's tokens — no token is
malformed (`ParseError`), one token is a scalar, several are a list. -/
def decodeTokens : List (List Char) → Option PValue
  | [] => none
  | [t] => some (PValue.scalar (decodeToken t))
  | ts => some (PValue.list (ts.map decodeToken))

/-- Modelled from the spec: `write_parameters` serializes each entry of the
ordered mapping to one record, preserving insertion order. -/
def write_parameters (p : ParameterSet) : List FLine :=
  p.map (fun kv => FLine.record kv.1 (encodeValue kv.2))

/-- Modelled from the spec: `read_parameters` parses the records of a file
in order into an ordered typed mapping; `none` models `ParseError`. -/
def read_parameters : List FLine → Option ParameterSet
  | [] => some []
  | FLine.comment _ :: rest => read_parameters rest
  | FLine.record k ts :: rest =>
    match decodeTokens ts with
    | none => none
    | some v =>
      match read_parameters rest with
      | none => none
      | some ps => some ((k, v) :: ps)

/-- A value representable in the textual format: scalars representable,
lists of length at least two (a one-entry record reads back as a scalar). -/
def valueRepr : PValue → Bool
  | PValue.scalar s => scalarRepr s
  | PValue.list l => decide (2 ≤ l.length) && l.all scalarRepr

/-- A parameter set representable in the textual format. -/
def psetRepr (p : ParameterSet) : Bool :=
  p.all (fun kv => valueRepr kv.2)

theorem decodeTokens_encodeValue (v : PValue) (h : valueRepr v = true) :
    decodeTokens (encodeValue v) = some v := by
  cases v with
  | scalar s =>
    have hs : scalarRepr s = true := by simpa [valueRepr] using h
    simp only [encodeValue, decodeTokens, decodeToken_encodeScalar s hs]
  | list l =>
    rw [valueRepr, Bool.and_eq_true, decide_eq_true_iff] at h
    obtain ⟨hlen, hall⟩ := h
    rw [List.all_eq_true] at hall
    match l, hlen with
    | s1 :: s2 :: rest, _ =>
      show decodeTokens (encodeScalar s1 :: encodeScalar s2 :: rest.map encodeScalar)
          = some (PValue.list (s1 :: s2 :: rest))
      show some (PValue.list ((encodeScalar s1 :: encodeScalar s2 :: rest.map encodeScalar).map
          decodeToken)) = some (PValue.list (s1 :: s2 :: rest))
      rw [← List.map_cons, ← List.map_cons, List.map_map]
      congr 1
      congr 1
      have : ∀ x ∈ s1 :: s2 :: rest, (decodeToken ∘ encodeScalar) x = id x := by
        intro x hx
        simp only [Function.comp, id]
        exact decodeToken_encodeScalar x (hall x hx)
      rw [List.map_congr_left this, List.map_id]

/-- The parameter set written and re-read by `test_write_parameters`:
`{"float": 0.4, "list": [0.4, 0.2, 0.1], "int": 6, "int_list": [2, 5, 2],
"string": "test", "true": True, "false": False}`. -/
def testWriteParams : ParameterSet :=
  [("float", PValue.scalar (PScalar.float 4 1)),
   ("list", PValue.list [PScalar.float 4 1, PScalar.float 2 1, PScalar.float 1 1]),
   ("int", PValue.scalar (PScalar.int 6)),
   ("int_list", PValue.list [PScalar.int 2, PScalar.int 5, PScalar.int 2]),
   ("string", PValue.scalar (PScalar.str "test")),
   ("true", PValue.scalar (PScalar.bool true)),
   ("false", PValue.scalar (PScalar.bool false))]

/-- C1. For every ParameterSet representable in the typed parameter-file
format, reading back a file written from it yields a ParameterSet equal to
it — the same list of key/value pairs, so key insertion order and the type
of every value (booleans, integers, floats) are preserved. -/
theorem C1_read_write_roundtrip (p : ParameterSet) (h : psetRepr p = true) :
    read_parameters (write_parameters p) = some p := by
  induction p with
  | nil => rfl
  | cons kv rest ih =>
    rw [psetRepr, List.all_cons, Bool.and_eq_true] at h
    obtain ⟨hv, hrest⟩ := h
    obtain ⟨k, v⟩ := kv
    show read_parameters (FLine.record k (encodeValue v) :: write_parameters rest)
        = some ((k, v) :: rest)
    rw [read_parameters, decodeTokens_encodeValue v hv, ih hrest]

/-- Witness for C1 at the concrete parameter set of `test_write_parameters`. -/
theorem C1_witness :
    psetRepr testWriteParams = true ∧
      read_parameters (write_parameters testWriteParams) = some testWriteParams :=
  ⟨by decide, C1_read_write_roundtrip testWriteParams (by decide)⟩

/-! ## Ordered association lookup (Python dict access) -/

/-- Lookup in an insertion-ordered association list (first match). -/
def alookup {α : Type} (m : List (String × α)) (k : String) : Option α :=
  match m with
  | [] => none
  | (k2, v) :: rest => if k2 = k then some v else alookup rest k

theorem alookup_mem {α : Type} (m : List (String × α)) (k : String) (v : α)
    (h : alookup m k = some v) : (k, v) ∈ m := by
  induction m with
  | nil => cases h
  | cons kv rest ih =>
    obtain ⟨k2, w⟩ := kv
    unfold alookup at h
    by_cases hk : k2 = k
    · rw [if_pos hk] at h
      injection h with h2
      subst hk
      subst h2
      exact List.mem_cons_self _ _
    · rw [if_neg hk] at h
      exact List.mem_cons_of_mem _ (ih h)

theorem alookup_append_left {α : Type} (p q : List (String × α)) (k : String)
    (v : α) (h : alookup p k = some v) : alookup (p ++ q) k = some v := by
  induction p with
  | nil => cases h
  | cons kv rest ih =>
    obtain ⟨k2, w⟩ := kv
    unfold alookup at h
    show (if k2 = k then some w else alookup (rest ++ q) k) = some v
    by_cases hk : k2 = k
    · rwa [if_pos hk] at h ⊢
    · rw [if_neg hk] at h ⊢
      exact ih h

/-! ## `adjust_parameters` -/

/-- Key of a record line, `none` for a passthrough line. -/
def lineKey : FLine → Option String
  | FLine.record k _ => some k
  | FLine.comment _ => none

/-- Keys of the record lines of a file. -/
def recordKeys (f : List FLine) : List String :=
  f.filterMap lineKey

/-- Replace one line: a record whose key appears in the overrides gets the
override's encoded value; every other line passes through unchanged. -/
def replaceLine (ov : ParameterSet) : FLine → FLine
  | FLine.record k ts =>
    match alookup ov k with
    | some v => FLine.record k (encodeValue v)
    | none => FLine.record k ts
  | FLine.comment s => FLine.comment s

/-- Modelled from the spec: `adjust_parameters` copies the source file line
by line, replacing only the records whose key appears in the overrides, and
appends records for override keys absent from the source. -/
def adjust_parameters (f : List FLine) (ov : ParameterSet) : List FLine :=
  f.map (replaceLine ov)
    ++ (ov.filter (fun kv => !(recordKeys f).contains kv.1)).map
        (fun kv => FLine.record kv.1 (encodeValue kv.2))

/-- C3. Adjustment is surgical: a source line that is a comment, or a
record whose key is absent from the overrides, appears unchanged at the same
position of the output; a record whose key appears in the overrides appears
at the same position with only its value replaced; and exactly the override
keys absent from the source are appended after the source's lines. -/
theorem C3_adjust_surgical (f : List FLine) (ov : ParameterSet) :
    (∀ (i : Nat) (l : FLine), f[i]? = some l →
        (∀ k ts, l = FLine.record k ts → alookup ov k = none) →
        (adjust_parameters f ov)[i]? = some l)
    ∧ (∀ (i : Nat) (k : String) (ts : List (List Char)) (v : PValue),
        f[i]? = some (FLine.record k ts) → alookup ov k = some v →
        (adjust_parameters f ov)[i]? = some (FLine.record k (encodeValue v)))
    ∧ (adjust_parameters f ov).drop f.length
        = (ov.filter (fun kv => !(recordKeys f).contains kv.1)).map
            (fun kv => FLine.record kv.1 (encodeValue kv.2)) := by
  have hidx : ∀ i, i < f.length →
      (adjust_parameters f ov)[i]? = (f[i]?).map (replaceLine ov) := by
    intro i hi
    unfold adjust_parameters
    rw [List.getElem?_append_left (by rwa [List.length_map]), List.getElem?_map]
  refine ⟨?_, ?_, ?_⟩
  · intro i l hl hnk
    have hi : i < f.length := by
      by_contra hge
      rw [List.getElem?_eq_none (by omega)] at hl
      cases hl
    rw [hidx i hi, hl]
    cases l with
    | comment s => rfl
    | record k ts =>
      show some (match alookup ov k with
        | some v => FLine.record k (encodeValue v)
        | none => FLine.record k ts) = some (FLine.record k ts)
      rw [hnk k ts rfl]
  · intro i k ts v hl hv
    have hi : i < f.length := by
      by_contra hge
      rw [List.getElem?_eq_none (by omega)] at hl
      cases hl
    rw [hidx i hi, hl]
    show some (match alookup ov k with
      | some v => FLine.record k (encodeValue v)
      | none => FLine.record k ts) = some (FLine.record k (encodeValue v))
    rw [hv]
  · unfold adjust_parameters
    rw [show f.length = (f.map (replaceLine ov)).length by rw [List.length_map],
        List.drop_left]

/-- The source file of `test_adjust_parameters`, reduced to the lines the
test inspects: a comment, the `(DefaultPixelValue 0)` record and one other
record. -/
def testAdjustFile : List FLine :=
  [FLine.comment "// MI Translation parameter file",
   FLine.record "DefaultPixelValue" [['0']],
   FLine.record "NumberOfResolutions" [['4']]]

/-- The overrides of `test_adjust_parameters`: `{"DefaultPixelValue": 10}`. -/
def testAdjustOv : ParameterSet :=
  [("DefaultPixelValue", PValue.scalar (PScalar.int 10))]

/-- Witness for C3 at the concrete file and overrides of
`test_adjust_parameters`: the comment passes through unchanged, the
`DefaultPixelValue` record becomes `(DefaultPixelValue 10)`. -/
theorem C3_witness :
    (adjust_parameters testAdjustFile testAdjustOv)[0]?
        = some (FLine.comment "// MI Translation parameter file")
      ∧ (adjust_parameters testAdjustFile testAdjustOv)[1]?
        = some (FLine.record "DefaultPixelValue"
            (encodeValue (PValue.scalar (PScalar.int 10)))) :=
  ⟨(C3_adjust_surgical testAdjustFile testAdjustOv).1 0
      (FLine.comment "// MI Translation parameter file") rfl
      (fun k ts h => by cases h),
    (C3_adjust_surgical testAdjustFile testAdjustOv).2.1 1
      "DefaultPixelValue" [['0']] (PValue.scalar (PScalar.int 10)) rfl rfl⟩

/-! ## `shift_translation_parameters` -/

/-- Exact decimal numbers `m / 10^e` as mantissa/exponent pairs. -/
def decValQ (d : Int × Nat) : ℚ := (d.1 : ℚ) / 10 ^ d.2

/-- The decimal reading of a numeric scalar (an integer token or a float
token of the transform file). -/
def decOfScalar : PScalar → Option (Int × Nat)
  | PScalar.int i => some (i, 0)
  | PScalar.float m e => some (m, e)
  | _ => none

/-- Numeric value of a numeric scalar. -/
def scalarValQ (s : PScalar) : Option ℚ :=
  (decOfScalar s).map decValQ

/-- Exact decimal subtraction on mantissa/exponent pairs; the result keeps
at least one digit behind the decimal point so it stays representable. -/
def decSub (a b : Int × Nat) : Int × Nat :=
  (a.1 * (10 : Int) ^ (max (max a.2 b.2) 1 - a.2)
      - b.1 * (10 : Int) ^ (max (max a.2 b.2) 1 - b.2),
    max (max a.2 b.2) 1)

theorem decValQ_decSub (a b : Int × Nat) :
    decValQ (decSub a b) = decValQ a - decValQ b := by
  unfold decValQ decSub
  have key : ∀ (m : Int) (em : Nat), em ≤ max (max a.2 b.2) 1 →
      ((m : ℚ) * 10 ^ (max (max a.2 b.2) 1 - em)) / 10 ^ max (max a.2 b.2) 1
        = (m : ℚ) / 10 ^ em := by
    intro m em hle
    rw [show (10 : ℚ) ^ max (max a.2 b.2) 1
        = 10 ^ (max (max a.2 b.2) 1 - em) * 10 ^ em by
      rw [← pow_add]
      congr 1
      omega]
    rw [← div_div]
    rw [mul_div_cancel_right₀ _ (by positivity : ((10 : ℚ) ^ (max (max a.2 b.2) 1 - em)) ≠ 0)]
  push_cast
  rw [sub_div, key a.1 a.2 (by omega), key b.1 b.2 (by omega)]

theorem decSub_snd_pos (a b : Int × Nat) : (decSub a b).2 ≠ 0 := by
  unfold decSub
  omega

/-- Modelled from the spec: `shift_translation_parameters` reads the file's
`TransformParameters` list, subtracts `(dx, dy, dz)` from its first three
entries, leaves the remaining entries untouched, and writes the adjusted
file (via `adjust_parameters`); `none` models `ParseError`/`SchemaError`
(fewer than three translation parameters or non-numeric entries). -/
def shift_translation_parameters (f : List FLine) (dx dy dz : Int × Nat) :
    Option (List FLine) :=
  match read_parameters f with
  | none => none
  | some p =>
    match alookup p "TransformParameters" with
    | some (PValue.list (t0 :: t1 :: t2 :: rest)) =>
      match decOfScalar t0, decOfScalar t1, decOfScalar t2 with
      | some a, some b, some c =>
        some (adjust_parameters f
          [("TransformParameters", PValue.list
            (PScalar.float (decSub a dx).1 (decSub a dx).2
              :: PScalar.float (decSub b dy).1 (decSub b dy).2
              :: PScalar.float (decSub c dz).1 (decSub c dz).2
              :: rest))])
      | _, _, _ => none
    | _ => none

theorem read_parameters_append (f1 f2 : List FLine) (p1 p2 : ParameterSet)
    (h1 : read_parameters f1 = some p1) (h2 : read_parameters f2 = some p2) :
    read_parameters (f1 ++ f2) = some (p1 ++ p2) := by
  induction f1 generalizing p1 with
  | nil =>
    injection h1 with h1
    subst h1
    simpa using h2
  | cons l rest ih =>
    cases l with
    | comment s =>
      rw [read_parameters] at h1
      rw [List.cons_append]
      show read_parameters (FLine.comment s :: (rest ++ f2)) = some (p1 ++ p2)
      rw [read_parameters]
      exact ih p1 h1
    | record k ts =>
      rw [read_parameters] at h1
      cases hdt : decodeTokens ts with
      | none =>
        rw [hdt] at h1
        exact Option.noConfusion h1
      | some v =>
        rw [hdt] at h1
        cases hrr : read_parameters rest with
        | none =>
          rw [hrr] at h1
          exact Option.noConfusion h1
        | some ps =>
          rw [hrr] at h1
          injection h1 with h1
          subst h1
          rw [List.cons_append]
          show read_parameters (FLine.record k ts :: (rest ++ f2)) = _
          rw [read_parameters, hdt, ih ps hrr]
          rfl

/-- The per-entry substitution `adjust_parameters` induces on the parsed
parameter set. -/
def substEntry (ov : ParameterSet) (kv : String × PValue) : String × PValue :=
  match alookup ov kv.1 with
  | some v => (kv.1, v)
  | none => kv

theorem read_parameters_map_replace (f : List FLine) (p ov : ParameterSet)
    (hf : read_parameters f = some p)
    (hov : ∀ kv ∈ ov, decodeTokens (encodeValue kv.2) = some kv.2) :
    read_parameters (f.map (replaceLine ov)) = some (p.map (substEntry ov)) := by
  induction f generalizing p with
  | nil =>
    injection hf with hf
    subst hf
    rfl
  | cons l rest ih =>
    cases l with
    | comment s =>
      rw [read_parameters] at hf
      rw [List.map_cons]
      show read_parameters (FLine.comment s :: rest.map (replaceLine ov)) = _
      rw [read_parameters]
      exact ih p hf
    | record k ts =>
      rw [read_parameters] at hf
      cases hdt : decodeTokens ts with
      | none =>
        rw [hdt] at hf
        exact Option.noConfusion hf
      | some v =>
        rw [hdt] at hf
        cases hrr : read_parameters rest with
        | none =>
          rw [hrr] at hf
          exact Option.noConfusion hf
        | some ps =>
          rw [hrr] at hf
          injection hf with hf
          subst hf
          rw [List.map_cons]
          cases hov2 : alookup ov k with
          | none =>
            have hrl : replaceLine ov (FLine.record k ts) = FLine.record k ts := by
              simp [replaceLine, hov2]
            have hse : substEntry ov (k, v) = (k, v) := by
              simp [substEntry, hov2]
            rw [hrl, read_parameters, hdt, ih ps hrr, List.map_cons, hse]
          | some w =>
            have hrl : replaceLine ov (FLine.record k ts)
                = FLine.record k (encodeValue w) := by
              simp [replaceLine, hov2]
            have hw : decodeTokens (encodeValue w) = some w :=
              hov (k, w) (alookup_mem ov k w hov2)
            have hse : substEntry ov (k, v) = (k, w) := by
              simp [substEntry, hov2]
            rw [hrl, read_parameters, hw, ih ps hrr, List.map_cons, hse]

theorem read_parameters_records (q : ParameterSet)
    (hq : ∀ kv ∈ q, decodeTokens (encodeValue kv.2) = some kv.2) :
    read_parameters (q.map (fun kv => FLine.record kv.1 (encodeValue kv.2)))
      = some q := by
  induction q with
  | nil => rfl
  | cons kv rest ih =>
    obtain ⟨k, v⟩ := kv
    rw [List.map_cons]
    show read_parameters (FLine.record k (encodeValue v) :: _) = _
    rw [read_parameters, hq (k, v) (List.mem_cons_self _ _),
        ih (fun x hx => hq x (List.mem_cons_of_mem _ hx))]

/-- Reading back an adjusted file: every source record re-reads with its key
substituted by the overrides when applicable, and the override keys missing
from the source follow at the end. -/
theorem read_adjust (f : List FLine) (p ov : ParameterSet)
    (hf : read_parameters f = some p)
    (hov : ∀ kv ∈ ov, decodeTokens (encodeValue kv.2) = some kv.2) :
    read_parameters (adjust_parameters f ov)
      = some (p.map (substEntry ov)
          ++ ov.filter (fun kv => !(recordKeys f).contains kv.1)) := by
  unfold adjust_parameters
  apply read_parameters_append
  · exact read_parameters_map_replace f p ov hf hov
  · apply read_parameters_records
    intro kv hkv
    exact hov kv (List.mem_of_mem_filter hkv)

theorem alookup_map_substEntry (p ov : ParameterSet) (k : String) :
    alookup (p.map (substEntry ov)) k
      = (alookup p k).map (fun v =>
          match alookup ov k with
          | some w => w
          | none => v) := by
  induction p with
  | nil => rfl
  | cons kv rest ih =>
    obtain ⟨k2, v2⟩ := kv
    by_cases hk : k2 = k
    · subst hk
      cases hov2 : alookup ov k2 with
      | none => simp [alookup, substEntry, hov2]
      | some w => simp [alookup, substEntry, hov2]
    · cases hov2 : alookup ov k2 with
      | none => simp [alookup, substEntry, hov2, hk, ih]
      | some w => simp [alookup, substEntry, hov2, hk, ih]

theorem scalarValQ_float_decSub (a d : Int × Nat) :
    scalarValQ (PScalar.float (decSub a d).1 (decSub a d).2)
      = some (decValQ a - decValQ d) := by
  show some (decValQ (decSub a d)) = some (decValQ a - decValQ d)
  rw [decValQ_decSub]

/-- C2. For every transform file whose `TransformParameters` list has at
least three (numeric) entries and every shift `(dx, dy, dz)`,
`shift_translation_parameters` writes a file whose first three
`TransformParameters` equal the input values minus the shift componentwise
(`final[i] = init[i] - shift[i]`), and every entry beyond the first three is
unchanged. -/
theorem C2_shift_translation (f : List FLine) (p : ParameterSet)
    (t0 t1 t2 : PScalar) (rest : List PScalar) (a b c dx dy dz : Int × Nat)
    (hf : read_parameters f = some p)
    (hTP : alookup p "TransformParameters"
      = some (PValue.list (t0 :: t1 :: t2 :: rest)))
    (ha : decOfScalar t0 = some a) (hb : decOfScalar t1 = some b)
    (hc : decOfScalar t2 = some c)
    (hrest : rest.all scalarRepr = true) :
    ∃ f2 p2, shift_translation_parameters f dx dy dz = some f2
      ∧ read_parameters f2 = some p2
      ∧ alookup p2 "TransformParameters" = some (PValue.list
          (PScalar.float (decSub a dx).1 (decSub a dx).2
            :: PScalar.float (decSub b dy).1 (decSub b dy).2
            :: PScalar.float (decSub c dz).1 (decSub c dz).2 :: rest))
      ∧ scalarValQ (PScalar.float (decSub a dx).1 (decSub a dx).2)
          = some (decValQ a - decValQ dx)
      ∧ scalarValQ (PScalar.float (decSub b dy).1 (decSub b dy).2)
          = some (decValQ b - decValQ dy)
      ∧ scalarValQ (PScalar.float (decSub c dz).1 (decSub c dz).2)
          = some (decValQ c - decValQ dz) := by
  have hshift : shift_translation_parameters f dx dy dz
      = some (adjust_parameters f
          [("TransformParameters", PValue.list
            (PScalar.float (decSub a dx).1 (decSub a dx).2
              :: PScalar.float (decSub b dy).1 (decSub b dy).2
              :: PScalar.float (decSub c dz).1 (decSub c dz).2 :: rest))]) := by
    unfold shift_translation_parameters
    rw [hf]
    dsimp only
    rw [hTP]
    dsimp only
    rw [ha, hb, hc]
  have hov : ∀ kv ∈ [("TransformParameters", PValue.list
        (PScalar.float (decSub a dx).1 (decSub a dx).2
          :: PScalar.float (decSub b dy).1 (decSub b dy).2
          :: PScalar.float (decSub c dz).1 (decSub c dz).2 :: rest))],
      decodeTokens (encodeValue kv.2) = some kv.2 := by
    intro kv hkv
    rcases List.mem_singleton.1 hkv with rfl
    apply decodeTokens_encodeValue
    unfold valueRepr
    rw [Bool.and_eq_true]
    constructor
    · rw [decide_eq_true_iff]
      simp [List.length_cons]
    · have h1 : scalarRepr (PScalar.float (decSub a dx).1 (decSub a dx).2) = true := by
        simp [scalarRepr]
        exact decSub_snd_pos a dx
      have h2 : scalarRepr (PScalar.float (decSub b dy).1 (decSub b dy).2) = true := by
        simp [scalarRepr]
        exact decSub_snd_pos b dy
      have h3 : scalarRepr (PScalar.float (decSub c dz).1 (decSub c dz).2) = true := by
        simp [scalarRepr]
        exact decSub_snd_pos c dz
      rw [List.all_cons, List.all_cons, List.all_cons, h1, h2, h3, hrest]
      rfl
  have hread := read_adjust f p _ hf hov
  refine ⟨_, _, hshift, hread, ?_, scalarValQ_float_decSub a dx,
    scalarValQ_float_decSub b dy, scalarValQ_float_decSub c dz⟩
  apply alookup_append_left
  rw [alookup_map_substEntry, hTP]
  simp [alookup]

/-- The transform file of the C2 witness: `TransformParameters` holding the
floats `5.0 7.0 3.0 1.0`. -/
def testShiftFile : List FLine :=
  write_parameters [("TransformParameters",
    PValue.list [PScalar.float 50 1, PScalar.float 70 1,
      PScalar.float 30 1, PScalar.float 10 1])]

/-- Witness for C2 at a concrete transform file and the shift `(5, 7, 3)` of
`test_shift_parameters`. -/
theorem C2_witness :
    ∃ f2 p2, shift_translation_parameters testShiftFile (5, 0) (7, 0) (3, 0) = some f2
      ∧ read_parameters f2 = some p2
      ∧ alookup p2 "TransformParameters" = some (PValue.list
          (PScalar.float (decSub (50, 1) (5, 0)).1 (decSub (50, 1) (5, 0)).2
            :: PScalar.float (decSub (70, 1) (7, 0)).1 (decSub (70, 1) (7, 0)).2
            :: PScalar.float (decSub (30, 1) (3, 0)).1 (decSub (30, 1) (3, 0)).2
            :: [PScalar.float 10 1]))
      ∧ scalarValQ (PScalar.float (decSub (50, 1) (5, 0)).1 (decSub (50, 1) (5, 0)).2)
          = some (decValQ (50, 1) - decValQ (5, 0))
      ∧ scalarValQ (PScalar.float (decSub (70, 1) (7, 0)).1 (decSub (70, 1) (7, 0)).2)
          = some (decValQ (70, 1) - decValQ (7, 0))
      ∧ scalarValQ (PScalar.float (decSub (30, 1) (3, 0)).1 (decSub (30, 1) (3, 0)).2)
          = some (decValQ (30, 1) - decValQ (3, 0)) :=
  C2_shift_translation testShiftFile
    [("TransformParameters", PValue.list [PScalar.float 50 1, PScalar.float 70 1,
      PScalar.float 30 1, PScalar.float 10 1])]
    (PScalar.float 50 1) (PScalar.float 70 1) (PScalar.float 30 1)
    [PScalar.float 10 1] (50, 1) (70, 1) (30, 1) (5, 0) (7, 0) (3, 0)
    (by decide) (by decide) rfl rfl rfl rfl

/-! ## Pipeline State Manager

Modelled from the spec: the `Registration` class of `skrt/registration.py`
is absent from the source tree; the working-directory layout (fixed/moving
copies, a step-order file with one step name per line, one subdirectory per
step holding its parameter file, transform file and transformed image) and
the operations `load_steps`, `add_pfile`, `remove_step`, `clear`,
`already_performed` and `register` are modelled from the specification. -/

/-- One step subdirectory on disk: its name and which of its output files
(the transform file and the transformed image) exist. -/
structure StepDir where
  name : String
  hasTFile : Bool
  hasTImage : Bool
deriving DecidableEq, Repr

/-- The working directory on disk: fixed/moving image copies, the step-order
file (one step name per line) and the step subdirectories. -/
structure WorkDir where
  hasFixed : Bool
  hasMoving : Bool
  stepsFileLines : List String
  dirs : List StepDir
deriving DecidableEq, Repr

/-- The in-memory state of a `Registration` object. -/
structure RegState where
  fixedLoaded : Bool
  movingLoaded : Bool
  steps : List String
  outdirs : List (String × String)
  pfiles : List (String × String)
  tfiles : List (String × String)
  transformed_images : List (String × String)
deriving DecidableEq, Repr

/-- Conventional output-directory path of a step. -/
def outdirPath (n : String) : String := n

/-- Conventional parameter-file path of a step. -/
def pfilePath (n : String) : String := n ++ "/InputParameters.txt"

/-- Conventional transform-file path of a step. -/
def tfilePath (n : String) : String := n ++ "/TransformParameters.0.txt"

/-- Conventional transformed-image path of a step. -/
def timagePath (n : String) : String := n ++ "/result.0.nii.gz"

/-- The step subdirectory of a given name, when present. -/
def findDir (wd : WorkDir) (n : String) : Option StepDir :=
  wd.dirs.find? (fun d => d.name == n)

/-- Does the transform file of the named step exist among the given step
subdirectories? -/
def dirPerformed (dirs : List StepDir) (k : String) : Bool :=
  match dirs.find? (fun d => d.name == k) with
  | some d => d.hasTFile
  | none => false

/-- Does the transformed image of the named step exist among the given step
subdirectories? -/
def dirTImage (dirs : List StepDir) (k : String) : Bool :=
  match dirs.find? (fun d => d.name == k) with
  | some d => d.hasTImage
  | none => false

/-- Modelled from the spec: `already_performed(name)` is true iff the step's
expected transform-file path exists on disk. -/
def already_performed (wd : WorkDir) (n : String) : Bool :=
  dirPerformed wd.dirs n

/-- Does the step's expected transformed-image path exist on disk? -/
def hasTImageOn (wd : WorkDir) (n : String) : Bool :=
  dirTImage wd.dirs n

/-- Modelled from the spec: `load_steps` scans the persisted step-order
record and reconstructs `outdirs`/`pfiles` from the naming convention, and
`tfiles`/`transformed_images` only for the steps whose output files are
present on disk. -/
def load_steps (wd : WorkDir) : RegState :=
  { fixedLoaded := wd.hasFixed
    movingLoaded := wd.hasMoving
    steps := wd.stepsFileLines
    outdirs := wd.stepsFileLines.map (fun n => (n, outdirPath n))
    pfiles := wd.stepsFileLines.map (fun n => (n, pfilePath n))
    tfiles := (wd.stepsFileLines.filter (fun n => already_performed wd n)).map
        (fun n => (n, tfilePath n))
    transformed_images := (wd.stepsFileLines.filter (fun n => hasTImageOn wd n)).map
        (fun n => (n, timagePath n)) }

/-- Modelled from the spec: construction — with `overwrite` the existing
fixed/moving copies and all step subdirectories are deleted and the state
starts empty; without it the state is reconstructed from disk, writing the
supplied images (when given) into the working directory first. -/
def initRegistration (wd : WorkDir) (fixed moving : Bool) (overwrite : Bool) :
    RegState × WorkDir :=
  if overwrite then
    ({ fixedLoaded := fixed, movingLoaded := moving, steps := [],
       outdirs := [], pfiles := [], tfiles := [], transformed_images := [] },
     { hasFixed := fixed, hasMoving := moving, stepsFileLines := [], dirs := [] })
  else
    let wd2 : WorkDir :=
      { wd with
        hasFixed := wd.hasFixed || fixed,
        hasMoving := wd.hasMoving || moving }
    (load_steps wd2, wd2)

/-- Replace the (first) directory entry of the same name, else append. -/
def dirUpsert (dirs : List StepDir) (d : StepDir) : List StepDir :=
  match dirs with
  | [] => [d]
  | d2 :: rest => if d2.name = d.name then d :: rest else d2 :: dirUpsert rest d

/-- Smallest derived sequential name not colliding with an existing step. -/
def freshName (steps : List String) : Option String :=
  ((List.range (steps.length + 1)).map (fun i => toString (steps.length + 1 + i))).find?
    (fun c => decide (c ∉ steps))

/-- Modelled from the spec: `add_pfile` derives a unique name when none is
given, creates the step's output directory, copies the parameter file into
it, and appends the step to the step list and the persisted step-order
record; a name collision (`DuplicateNameError`) leaves the state unchanged. -/
def add_pfile (st : RegState) (wd : WorkDir) (name : Option String) :
    RegState × WorkDir :=
  let nm : Option String :=
    match name with
    | some n => if n ∈ st.steps then none else some n
    | none => freshName st.steps
  match nm with
  | none => (st, wd)
  | some n =>
    ({ st with
        steps := st.steps ++ [n],
        outdirs := st.outdirs ++ [(n, outdirPath n)],
        pfiles := st.pfiles ++ [(n, pfilePath n)] },
     { wd with
        stepsFileLines := wd.stepsFileLines ++ [n],
        dirs := dirUpsert wd.dirs ⟨n, false, false⟩ })

/-- Modelled from the spec: `remove_step` deletes the step's output
directory from disk and removes the corresponding entries from all four
mappings and the step-order record. -/
def remove_step (st : RegState) (wd : WorkDir) (n : String) :
    RegState × WorkDir :=
  if n ∈ st.steps then
    ({ st with
        steps := st.steps.filter (fun m => decide (m ≠ n)),
        outdirs := st.outdirs.filter (fun kv => decide (kv.1 ≠ n)),
        pfiles := st.pfiles.filter (fun kv => decide (kv.1 ≠ n)),
        tfiles := st.tfiles.filter (fun kv => decide (kv.1 ≠ n)),
        transformed_images := st.transformed_images.filter (fun kv => decide (kv.1 ≠ n)) },
     { wd with
        stepsFileLines := wd.stepsFileLines.filter (fun m => decide (m ≠ n)),
        dirs := wd.dirs.filter (fun d => decide (d.name ≠ n)) })
  else (st, wd)

/-- Modelled from the spec: `clear` deletes every step's output directory
from disk, truncates the step-order record and empties all four mappings. -/
def clear_reg (st : RegState) (wd : WorkDir) : RegState × WorkDir :=
  ({ st with
      steps := [], outdirs := [], pfiles := [], tfiles := [],
      transformed_images := [] },
   { wd with
      stepsFileLines := [],
      dirs := wd.dirs.filter (fun d => decide (d.name ∉ st.steps)) })

/-- Mark a step's directory as holding its outputs (the external engine
wrote the transform file and transformed image). -/
def dirMarkDone (dirs : List StepDir) (n : String) : List StepDir :=
  match dirs with
  | [] => [⟨n, true, true⟩]
  | d :: rest =>
    if d.name = n then ⟨d.name, true, true⟩ :: rest else d :: dirMarkDone rest n

/-- The working directory after a successful engine invocation for a step. -/
def setPerformed (wd : WorkDir) (n : String) : WorkDir :=
  { wd with dirs := dirMarkDone wd.dirs n }

/-- Modelled from the spec: the per-step loop of `register` — skip a step
that is `already_performed`; otherwise invoke the external engine (recording
the invocation) and, on success, record the transform file and transformed
image; on failure stop, leaving the step unperformed.  Returns the final
state, working directory, the list of invoked steps, and success. -/
def runSteps (st : RegState) (wd : WorkDir) (pending : List String)
    (engine : String → Bool) (invoked : List String) :
    RegState × WorkDir × List String × Bool :=
  match pending with
  | [] => (st, wd, invoked, true)
  | n :: restp =>
    if already_performed wd n then runSteps st wd restp engine invoked
    else if engine n then
      runSteps
        { st with
            tfiles := st.tfiles ++ [(n, tfilePath n)],
            transformed_images := st.transformed_images ++ [(n, timagePath n)] }
        (setPerformed wd n) restp engine (invoked ++ [n])
    else (st, wd, invoked ++ [n], false)

/-- Modelled from the spec: `register` runs every step in order (requiring
both images to be present — `MissingInputError` otherwise), skipping steps
that are `already_performed`. -/
def register (st : RegState) (wd : WorkDir) (engine : String → Bool) :
    RegState × WorkDir × List String × Bool :=
  if st.fixedLoaded && st.movingLoaded then runSteps st wd st.steps engine []
  else (st, wd, [], false)

/-- A mutation of the pipeline state. -/
inductive RegOp
  | add (name : Option String)
  | remove (name : String)
  | clearSteps
  | run (engine : String → Bool)

/-- Apply one mutation. -/
def applyOp (s : RegState × WorkDir) : RegOp → RegState × WorkDir
  | RegOp.add n => add_pfile s.1 s.2 n
  | RegOp.remove n => remove_step s.1 s.2 n
  | RegOp.clearSteps => clear_reg s.1 s.2
  | RegOp.run eng => ((register s.1 s.2 eng).1, (register s.1 s.2 eng).2.1)

/-- Apply a sequence of mutations. -/
def applyOps (s : RegState × WorkDir) (ops : List RegOp) : RegState × WorkDir :=
  ops.foldl applyOp s

/-! ### Directory-list lemmas -/

theorem find?_dirUpsert (dirs : List StepDir) (d : StepDir) (k : String) :
    (dirUpsert dirs d).find? (fun d2 => d2.name == k)
      = if d.name = k then some d else dirs.find? (fun d2 => d2.name == k) := by
  induction dirs with
  | nil =>
    show List.find? (fun d2 => d2.name == k) [d] = _
    by_cases hk : d.name = k
    · rw [if_pos hk]
      rw [List.find?_cons_of_pos _ (by simpa using hk)]
    · rw [if_neg hk]
      rw [List.find?_cons_of_neg _ (by simpa using hk)]
  | cons d2 rest ih =>
    show List.find? (fun d2 => d2.name == k)
        (if d2.name = d.name then d :: rest else d2 :: dirUpsert rest d) = _
    by_cases h2 : d2.name = d.name
    · rw [if_pos h2]
      by_cases hk : d.name = k
      · rw [List.find?_cons_of_pos _ (by simpa using hk), if_pos hk]
      · rw [List.find?_cons_of_neg _ (by simpa using hk), if_neg hk,
            List.find?_cons_of_neg]
        simp only [h2, beq_iff_eq]
        exact hk
    · rw [if_neg h2]
      by_cases hk2 : d2.name = k
      · have hdk : d.name ≠ k := by
          intro hdd
          exact h2 (hk2.trans hdd.symm)
        rw [List.find?_cons_of_pos _ (by simpa using hk2), if_neg hdk,
            List.find?_cons_of_pos _ (by simpa using hk2)]
      · rw [List.find?_cons_of_neg _ (by simpa using hk2), ih]
        by_cases hk : d.name = k
        · rw [if_pos hk, if_pos hk]
        · rw [if_neg hk, if_neg hk, List.find?_cons_of_neg _ (by simpa using hk2)]

theorem find?_dirMarkDone (dirs : List StepDir) (n k : String) :
    (dirMarkDone dirs n).find? (fun d2 => d2.name == k)
      = if n = k then some (⟨n, true, true⟩ : StepDir)
        else dirs.find? (fun d2 => d2.name == k) := by
  induction dirs with
  | nil =>
    show List.find? (fun d2 => d2.name == k) ([⟨n, true, true⟩] : List StepDir) = _
    by_cases hk : n = k
    · rw [if_pos hk]
      rw [List.find?_cons_of_pos _ (by simpa using hk)]
    · rw [if_neg hk]
      rw [List.find?_cons_of_neg _ (by simpa using hk)]
  | cons d2 rest ih =>
    show List.find? (fun d2 => d2.name == k)
        (if d2.name = n then (⟨d2.name, true, true⟩ : StepDir) :: rest
          else d2 :: dirMarkDone rest n) = _
    by_cases h2 : d2.name = n
    · rw [if_pos h2]
      by_cases hk : n = k
      · rw [List.find?_cons_of_pos _ (by simp [h2, hk]), if_pos hk, h2, hk]
      · rw [List.find?_cons_of_neg _ (by simp [h2]; exact hk), if_neg hk,
            List.find?_cons_of_neg]
        simp only [beq_iff_eq, h2]
        exact hk
    · rw [if_neg h2]
      by_cases hk2 : d2.name = k
      · have hnk : n ≠ k := by
          intro hnn
          exact h2 (hk2.trans hnn.symm)
        rw [List.find?_cons_of_pos _ (by simpa using hk2), if_neg hnk,
            List.find?_cons_of_pos _ (by simpa using hk2)]
      · rw [List.find?_cons_of_neg _ (by simpa using hk2), ih]
        by_cases hk : n = k
        · rw [if_pos hk, if_pos hk]
        · rw [if_neg hk, if_neg hk, List.find?_cons_of_neg _ (by simpa using hk2)]

theorem find?_filter_name_ne (dirs : List StepDir) (n k : String) (hk : k ≠ n) :
    (dirs.filter (fun d => decide (d.name ≠ n))).find? (fun d2 => d2.name == k)
      = dirs.find? (fun d2 => d2.name == k) := by
  induction dirs with
  | nil => rfl
  | cons d2 rest ih =>
    by_cases h2 : d2.name = n
    · rw [List.filter_cons_of_neg (by simp [h2]), ih,
          List.find?_cons_of_neg]
      simp only [beq_iff_eq, h2]
      exact fun h => hk h.symm
    · rw [List.filter_cons_of_pos (by simpa using h2)]
      by_cases hk2 : d2.name = k
      · rw [List.find?_cons_of_pos _ (by simpa using hk2),
            List.find?_cons_of_pos _ (by simpa using hk2)]
      · rw [List.find?_cons_of_neg _ (by simpa using hk2), ih,
            List.find?_cons_of_neg _ (by simpa using hk2)]

theorem dirPerformed_dirUpsert_fresh (dirs : List StepDir) (n k : String) :
    dirPerformed (dirUpsert dirs ⟨n, false, false⟩) k
      = if n = k then false else dirPerformed dirs k := by
  unfold dirPerformed
  rw [find?_dirUpsert]
  by_cases hk : n = k
  · rw [if_pos hk, if_pos hk]
  · rw [if_neg hk, if_neg hk]

theorem dirTImage_dirUpsert_fresh (dirs : List StepDir) (n k : String) :
    dirTImage (dirUpsert dirs ⟨n, false, false⟩) k
      = if n = k then false else dirTImage dirs k := by
  unfold dirTImage
  rw [find?_dirUpsert]
  by_cases hk : n = k
  · rw [if_pos hk, if_pos hk]
  · rw [if_neg hk, if_neg hk]

theorem dirPerformed_markDone (dirs : List StepDir) (n k : String) :
    dirPerformed (dirMarkDone dirs n) k
      = if n = k then true else dirPerformed dirs k := by
  unfold dirPerformed
  rw [find?_dirMarkDone]
  by_cases hk : n = k
  · rw [if_pos hk, if_pos hk]
  · rw [if_neg hk, if_neg hk]

theorem dirTImage_markDone (dirs : List StepDir) (n k : String) :
    dirTImage (dirMarkDone dirs n) k
      = if n = k then true else dirTImage dirs k := by
  unfold dirTImage
  rw [find?_dirMarkDone]
  by_cases hk : n = k
  · rw [if_pos hk, if_pos hk]
  · rw [if_neg hk, if_neg hk]

theorem dirPerformed_filter_ne (dirs : List StepDir) (n k : String) (hk : k ≠ n) :
    dirPerformed (dirs.filter (fun d => decide (d.name ≠ n))) k
      = dirPerformed dirs k := by
  unfold dirPerformed
  rw [find?_filter_name_ne dirs n k hk]

theorem dirTImage_filter_ne (dirs : List StepDir) (n k : String) (hk : k ≠ n) :
    dirTImage (dirs.filter (fun d => decide (d.name ≠ n))) k
      = dirTImage dirs k := by
  unfold dirTImage
  rw [find?_filter_name_ne dirs n k hk]

theorem dirUpsert_of_not_mem (dirs : List StepDir) (d : StepDir)
    (h : d.name ∉ dirs.map StepDir.name) : dirUpsert dirs d = dirs ++ [d] := by
  induction dirs with
  | nil => rfl
  | cons d2 rest ih =>
    rw [List.map_cons] at h
    show (if d2.name = d.name then d :: rest else d2 :: dirUpsert rest d) = _
    rw [if_neg (fun h2 => h (by rw [← h2]; exact List.mem_cons_self _ _)),
        ih (fun h2 => h (List.mem_cons_of_mem _ h2)), List.cons_append]

theorem dirMarkDone_names (dirs : List StepDir) (n : String)
    (h : n ∈ dirs.map StepDir.name) :
    (dirMarkDone dirs n).map StepDir.name = dirs.map StepDir.name := by
  induction dirs with
  | nil => cases h
  | cons d2 rest ih =>
    show (if d2.name = n then (⟨d2.name, true, true⟩ : StepDir) :: rest
        else d2 :: dirMarkDone rest n).map StepDir.name = _
    by_cases h2 : d2.name = n
    · rw [if_pos h2]
      rfl
    · rw [if_neg h2, List.map_cons, List.map_cons,
          ih (by
            rw [List.map_cons] at h
            rcases List.mem_cons.1 h with h3 | h3
            · exact absurd h3.symm h2
            · exact h3)]

theorem filter_name_map (dirs : List StepDir) (n : String) :
    (dirs.filter (fun d => decide (d.name ≠ n))).map StepDir.name
      = (dirs.map StepDir.name).filter (fun m => decide (m ≠ n)) := by
  induction dirs with
  | nil => rfl
  | cons d2 rest ih =>
    by_cases h2 : d2.name = n
    · rw [List.filter_cons_of_neg (by simp [h2]), List.map_cons,
          List.filter_cons_of_neg (by simp [h2]), ih]
    · rw [List.filter_cons_of_pos (by simpa using h2), List.map_cons,
          List.map_cons, List.filter_cons_of_pos (by simpa using h2), ih]

/-! ### Coherence of in-memory state with the working directory -/

/-- The in-memory state agrees with the on-disk working directory exactly as
a fresh `load_steps` scan would reconstruct it, the step names are distinct,
the directory entries are exactly the steps, and the performed steps form a
prefix of the step order. -/
structure Coherent (st : RegState) (wd : WorkDir) : Prop where
  fixed_eq : st.fixedLoaded = wd.hasFixed
  moving_eq : st.movingLoaded = wd.hasMoving
  steps_eq : st.steps = wd.stepsFileLines
  outdirs_eq : st.outdirs = st.steps.map (fun n => (n, outdirPath n))
  pfiles_eq : st.pfiles = st.steps.map (fun n => (n, pfilePath n))
  tfiles_eq : st.tfiles = (st.steps.filter (fun n => already_performed wd n)).map
      (fun n => (n, tfilePath n))
  timages_eq : st.transformed_images
      = (st.steps.filter (fun n => hasTImageOn wd n)).map (fun n => (n, timagePath n))
  dirnames_eq : wd.dirs.map StepDir.name = st.steps
  nodup : st.steps.Nodup
  sync : ∀ d ∈ wd.dirs, d.hasTImage = d.hasTFile
  perf_split : ∃ done todo, st.steps = done ++ todo
      ∧ (∀ n ∈ done, already_performed wd n = true)
      ∧ (∀ n ∈ todo, already_performed wd n = false)

/-- A coherent state is exactly what `load_steps` reconstructs from its
working directory. -/
theorem load_steps_of_coherent (st : RegState) (wd : WorkDir)
    (h : Coherent st wd) : load_steps wd = st := by
  obtain ⟨h1, h2, h3, h4, h5, h6, h7, h8, h9, h10, h11⟩ := h
  cases st with
  | mk f m s o p t ti =>
    simp only at h1 h2 h3 h4 h5 h6 h7
    subst h1
    subst h2
    subst h3
    subst h4
    subst h5
    subst h6
    subst h7
    rfl

theorem mem_dirUpsert (dirs : List StepDir) (d d2 : StepDir)
    (h : d2 ∈ dirUpsert dirs d) : d2 ∈ dirs ∨ d2 = d := by
  induction dirs with
  | nil =>
    rcases List.mem_singleton.1 h with rfl
    exact Or.inr rfl
  | cons d3 rest ih =>
    revert h
    show d2 ∈ (if d3.name = d.name then d :: rest else d3 :: dirUpsert rest d) → _
    by_cases h3 : d3.name = d.name
    · rw [if_pos h3]
      intro h
      rcases List.mem_cons.1 h with h4 | h4
      · exact Or.inr h4
      · exact Or.inl (List.mem_cons_of_mem _ h4)
    · rw [if_neg h3]
      intro h
      rcases List.mem_cons.1 h with h4 | h4
      · exact Or.inl (h4 ▸ List.mem_cons_self _ _)
      · rcases ih h4 with h5 | h5
        · exact Or.inl (List.mem_cons_of_mem _ h5)
        · exact Or.inr h5

theorem mem_dirMarkDone (dirs : List StepDir) (n : String) (d2 : StepDir)
    (h : d2 ∈ dirMarkDone dirs n) : d2 ∈ dirs ∨ d2 = ⟨n, true, true⟩ := by
  induction dirs with
  | nil =>
    rcases List.mem_singleton.1 h with rfl
    exact Or.inr rfl
  | cons d3 rest ih =>
    revert h
    show d2 ∈ (if d3.name = n then (⟨d3.name, true, true⟩ : StepDir) :: rest
        else d3 :: dirMarkDone rest n) → _
    by_cases h3 : d3.name = n
    · rw [if_pos h3]
      intro h
      rcases List.mem_cons.1 h with h4 | h4
      · exact Or.inr (by rw [h4, h3])
      · exact Or.inl (List.mem_cons_of_mem _ h4)
    · rw [if_neg h3]
      intro h
      rcases List.mem_cons.1 h with h4 | h4
      · exact Or.inl (h4 ▸ List.mem_cons_self _ _)
      · rcases ih h4 with h5 | h5
        · exact Or.inl (List.mem_cons_of_mem _ h5)
        · exact Or.inr h5

/-- Where the transform file and transformed image always appear together,
the two on-disk completion checks agree. -/
theorem dirTImage_eq_dirPerformed (dirs : List StepDir)
    (hs : ∀ d ∈ dirs, d.hasTImage = d.hasTFile) (k : String) :
    dirTImage dirs k = dirPerformed dirs k := by
  unfold dirTImage dirPerformed
  cases hf : dirs.find? (fun d => d.name == k) with
  | none => rfl
  | some d => exact hs d (List.mem_of_find?_eq_some hf)

theorem filter_map_fst (steps : List String) (path : String → String) (n : String) :
    ((steps.map (fun m => (m, path m))).filter (fun kv => decide (kv.1 ≠ n)))
      = (steps.filter (fun m => decide (m ≠ n))).map (fun m => (m, path m)) := by
  induction steps with
  | nil => rfl
  | cons m rest ih =>
    rw [List.map_cons]
    by_cases hm : m = n
    · rw [List.filter_cons_of_neg (by simp [hm]),
          List.filter_cons_of_neg (by simp [hm]), ih]
    · rw [List.filter_cons_of_pos (by simpa using hm),
          List.filter_cons_of_pos (by simpa using hm), List.map_cons, ih]

/-- Adding a fresh step preserves coherence. -/
theorem coherent_add_new (st : RegState) (wd : WorkDir) (n : String)
    (h : Coherent st wd) (hn : n ∉ st.steps) :
    Coherent
      { st with
          steps := st.steps ++ [n],
          outdirs := st.outdirs ++ [(n, outdirPath n)],
          pfiles := st.pfiles ++ [(n, pfilePath n)] }
      { wd with
          stepsFileLines := wd.stepsFileLines ++ [n],
          dirs := dirUpsert wd.dirs ⟨n, false, false⟩ } := by
  have hperf : ∀ k, dirPerformed (dirUpsert wd.dirs ⟨n, false, false⟩) k
      = if n = k then false else already_performed wd k :=
    fun k => dirPerformed_dirUpsert_fresh wd.dirs n k
  have htimg : ∀ k, dirTImage (dirUpsert wd.dirs ⟨n, false, false⟩) k
      = if n = k then false else hasTImageOn wd k :=
    fun k => dirTImage_dirUpsert_fresh wd.dirs n k
  have hups : dirUpsert wd.dirs ⟨n, false, false⟩ = wd.dirs ++ [⟨n, false, false⟩] :=
    dirUpsert_of_not_mem wd.dirs ⟨n, false, false⟩ (by rw [h.dirnames_eq]; exact hn)
  refine ⟨h.fixed_eq, h.moving_eq, ?_, ?_, ?_, ?_, ?_, ?_, ?_, ?_, ?_⟩
  · show st.steps ++ [n] = wd.stepsFileLines ++ [n]
    rw [h.steps_eq]
  · show st.outdirs ++ [(n, outdirPath n)] = (st.steps ++ [n]).map _
    rw [List.map_append, h.outdirs_eq]
    rfl
  · show st.pfiles ++ [(n, pfilePath n)] = (st.steps ++ [n]).map _
    rw [List.map_append, h.pfiles_eq]
    rfl
  · show st.tfiles = ((st.steps ++ [n]).filter _).map _
    rw [List.filter_append]
    have h1 : List.filter (fun k => already_performed
        { wd with
          stepsFileLines := wd.stepsFileLines ++ [n],
          dirs := dirUpsert wd.dirs ⟨n, false, false⟩ } k) [n] = [] := by
      rw [List.filter_cons_of_neg]
      · rfl
      · show ¬ (dirPerformed (dirUpsert wd.dirs ⟨n, false, false⟩) n = true)
        rw [hperf n, if_pos rfl]
        exact Bool.false_ne_true
    rw [h1, List.append_nil]
    rw [List.filter_congr (fun k hk => ?_), ← h.tfiles_eq]
    show dirPerformed (dirUpsert wd.dirs ⟨n, false, false⟩) k = already_performed wd k
    rw [hperf k, if_neg]
    intro h2
    rw [← h2] at hk
    exact hn hk
  · show st.transformed_images = ((st.steps ++ [n]).filter _).map _
    rw [List.filter_append]
    have h1 : List.filter (fun k => hasTImageOn
        { wd with
          stepsFileLines := wd.stepsFileLines ++ [n],
          dirs := dirUpsert wd.dirs ⟨n, false, false⟩ } k) [n] = [] := by
      rw [List.filter_cons_of_neg]
      · rfl
      · show ¬ (dirTImage (dirUpsert wd.dirs ⟨n, false, false⟩) n = true)
        rw [htimg n, if_pos rfl]
        exact Bool.false_ne_true
    rw [h1, List.append_nil]
    rw [List.filter_congr (fun k hk => ?_), ← h.timages_eq]
    show dirTImage (dirUpsert wd.dirs ⟨n, false, false⟩) k = hasTImageOn wd k
    rw [htimg k, if_neg]
    intro h2
    rw [← h2] at hk
    exact hn hk
  · show (dirUpsert wd.dirs ⟨n, false, false⟩).map StepDir.name = st.steps ++ [n]
    rw [hups, List.map_append, h.dirnames_eq]
    rfl
  · show (st.steps ++ [n]).Nodup
    rw [List.nodup_append]
    exact ⟨h.nodup, List.nodup_singleton n, by simpa using hn⟩
  · intro d hd
    rcases mem_dirUpsert _ _ _ hd with h2 | h2
    · exact h.sync d h2
    · rw [h2]
  · obtain ⟨done, todo, hsp, hdone, htodo⟩ := h.perf_split
    refine ⟨done, todo ++ [n], by rw [hsp, List.append_assoc], ?_, ?_⟩
    · intro k hk
      show dirPerformed (dirUpsert wd.dirs ⟨n, false, false⟩) k = true
      rw [hperf k, if_neg]
      · exact hdone k hk
      · intro h2
        rw [← h2] at hk
        exact hn (by rw [hsp]; exact List.mem_append_left _ hk)
    · intro k hk
      show dirPerformed (dirUpsert wd.dirs ⟨n, false, false⟩) k = false
      rcases List.mem_append.1 hk with h2 | h2
      · rw [hperf k, if_neg]
        · exact htodo k h2
        · intro h3
          rw [← h3] at h2
          exact hn (by rw [hsp]; exact List.mem_append_right _ h2)
      · rcases List.mem_singleton.1 h2 with rfl
        rw [hperf k, if_pos rfl]

theorem freshName_not_mem (steps : List String) (n : String)
    (h : freshName steps = some n) : n ∉ steps := by
  unfold freshName at h
  have h2 := List.find?_some h
  exact of_decide_eq_true h2

/-- Adding a parameter file preserves coherence. -/
theorem coherent_add (st : RegState) (wd : WorkDir) (name : Option String)
    (h : Coherent st wd) :
    Coherent (add_pfile st wd name).1 (add_pfile st wd name).2 := by
  unfold add_pfile
  cases name with
  | some n0 =>
    dsimp only
    by_cases hn : n0 ∈ st.steps
    · rw [if_pos hn]
      exact h
    · rw [if_neg hn]
      exact coherent_add_new st wd n0 h hn
  | none =>
    dsimp only
    cases hf : freshName st.steps with
    | none => exact h
    | some n => exact coherent_add_new st wd n h (freshName_not_mem _ _ hf)

/-- Removing a step preserves coherence. -/
theorem coherent_remove (st : RegState) (wd : WorkDir) (n : String)
    (h : Coherent st wd) :
    Coherent (remove_step st wd n).1 (remove_step st wd n).2 := by
  unfold remove_step
  by_cases hn : n ∈ st.steps
  · rw [if_pos hn]
    have hperf : ∀ k, k ≠ n →
        dirPerformed (wd.dirs.filter (fun d => decide (d.name ≠ n))) k
          = already_performed wd k :=
      fun k hk => dirPerformed_filter_ne wd.dirs n k hk
    have htimg : ∀ k, k ≠ n →
        dirTImage (wd.dirs.filter (fun d => decide (d.name ≠ n))) k
          = hasTImageOn wd k :=
      fun k hk => dirTImage_filter_ne wd.dirs n k hk
    refine ⟨h.fixed_eq, h.moving_eq, ?_, ?_, ?_, ?_, ?_, ?_, ?_, ?_, ?_⟩
    · show st.steps.filter _ = wd.stepsFileLines.filter _
      rw [h.steps_eq]
    · show st.outdirs.filter _ = (st.steps.filter _).map _
      rw [h.outdirs_eq, filter_map_fst]
    · show st.pfiles.filter _ = (st.steps.filter _).map _
      rw [h.pfiles_eq, filter_map_fst]
    · show st.tfiles.filter _ = ((st.steps.filter _).filter _).map _
      rw [h.tfiles_eq, filter_map_fst, List.filter_comm]
      congr 1
      apply List.filter_congr
      intro k hk
      have hkn : k ≠ n := by
        have := List.of_mem_filter hk
        exact of_decide_eq_true this
      show already_performed wd k
          = dirPerformed (wd.dirs.filter (fun d => decide (d.name ≠ n))) k
      rw [hperf k hkn]
    · show st.transformed_images.filter _ = ((st.steps.filter _).filter _).map _
      rw [h.timages_eq, filter_map_fst, List.filter_comm]
      congr 1
      apply List.filter_congr
      intro k hk
      have hkn : k ≠ n := by
        have := List.of_mem_filter hk
        exact of_decide_eq_true this
      show hasTImageOn wd k
          = dirTImage (wd.dirs.filter (fun d => decide (d.name ≠ n))) k
      rw [htimg k hkn]
    · show (wd.dirs.filter _).map StepDir.name = st.steps.filter _
      rw [filter_name_map, h.dirnames_eq]
    · exact h.nodup.filter _
    · intro d hd
      exact h.sync d (List.mem_of_mem_filter hd)
    · obtain ⟨done, todo, hsp, hdone, htodo⟩ := h.perf_split
      refine ⟨done.filter (fun m => decide (m ≠ n)),
        todo.filter (fun m => decide (m ≠ n)), ?_, ?_, ?_⟩
      · rw [hsp, List.filter_append]
      · intro k hk
        have hk2 := List.of_mem_filter hk
        have hkn : k ≠ n := of_decide_eq_true hk2
        show dirPerformed (wd.dirs.filter (fun d => decide (d.name ≠ n))) k = true
        rw [hperf k hkn]
        exact hdone k (List.mem_of_mem_filter hk)
      · intro k hk
        have hk2 := List.of_mem_filter hk
        have hkn : k ≠ n := of_decide_eq_true hk2
        show dirPerformed (wd.dirs.filter (fun d => decide (d.name ≠ n))) k = false
        rw [hperf k hkn]
        exact htodo k (List.mem_of_mem_filter hk)
  · rw [if_neg hn]
    exact h

/-- Clearing preserves coherence (the cleared state is coherent with the
cleared directory). -/
theorem coherent_clear (st : RegState) (wd : WorkDir) (h : Coherent st wd) :
    Coherent (clear_reg st wd).1 (clear_reg st wd).2 := by
  refine ⟨h.fixed_eq, h.moving_eq, rfl, rfl, rfl, rfl, rfl, ?_, List.nodup_nil, ?_, ?_⟩
  · show (wd.dirs.filter _).map StepDir.name = []
    rw [List.filter_eq_nil_iff.2 (fun d hd => ?_)]
    · rfl
    · show ¬ (decide (d.name ∉ st.steps) = true)
      rw [decide_eq_true_iff]
      intro h2
      apply h2
      rw [← h.dirnames_eq]
      exact List.mem_map_of_mem StepDir.name hd
  · intro d hd
    exact h.sync d (List.mem_of_mem_filter hd)
  · exact ⟨[], [], rfl, fun n hn => absurd hn (List.not_mem_nil n),
      fun n hn => absurd hn (List.not_mem_nil n)⟩

/-- Running through an already-performed prefix only skips. -/
theorem runSteps_skip_prefix (engine : String → Bool) (donep : List String) :
    ∀ (st : RegState) (wd : WorkDir) (invoked : List String) (pending2 : List String),
      (∀ k ∈ donep, already_performed wd k = true) →
      runSteps st wd (donep ++ pending2) engine invoked
        = runSteps st wd pending2 engine invoked := by
  induction donep with
  | nil => intro st wd invoked pending2 hall; rfl
  | cons n rest ih =>
    intro st wd invoked pending2 hall
    rw [List.cons_append, runSteps, if_pos (hall n (List.mem_cons_self n rest))]
    exact ih st wd invoked pending2 (fun k hk => hall k (List.mem_cons_of_mem _ hk))

/-- Running an all-unperformed pending list from a coherent state preserves
coherence. -/
theorem runSteps_coherent (engine : String → Bool) (pending : List String) :
    ∀ (st : RegState) (wd : WorkDir) (invoked : List String) (front : List String),
      st.steps = front ++ pending →
      (∀ k ∈ front, already_performed wd k = true) →
      (∀ k ∈ pending, already_performed wd k = false) →
      Coherent st wd →
      Coherent (runSteps st wd pending engine invoked).1
        (runSteps st wd pending engine invoked).2.1 := by
  induction pending with
  | nil => intro st wd invoked front hsplit hfront hpend h; exact h
  | cons n restp ih =>
    intro st wd invoked front hsplit hfront hpend h
    rw [runSteps]
    have hn : already_performed wd n = false := hpend n (List.mem_cons_self n restp)
    rw [if_neg (by rw [hn]; exact Bool.false_ne_true)]
    by_cases heng : engine n = true
    · rw [if_pos heng]
      have hnrest : n ∉ restp := by
        have hnd := h.nodup
        rw [hsplit] at hnd
        have h2 := (List.nodup_append.1 hnd).2.1
        exact (List.nodup_cons.1 h2).1
      have hperf : ∀ k, already_performed (setPerformed wd n) k
          = if n = k then true else already_performed wd k :=
        fun k => dirPerformed_markDone wd.dirs n k
      have htimg : ∀ k, hasTImageOn (setPerformed wd n) k
          = if n = k then true else hasTImageOn wd k :=
        fun k => dirTImage_markDone wd.dirs n k
      have hfrontn : ∀ k ∈ front, k ≠ n := by
        intro k hk hkn
        rw [hkn] at hk
        have hnd := h.nodup
        rw [hsplit] at hnd
        have h2 := List.nodup_append.1 hnd
        exact h2.2.2 hk (List.mem_cons_self n restp)
      have hfilter_perf : st.steps.filter (fun k => already_performed wd k) = front := by
        rw [hsplit, List.filter_append]
        rw [List.filter_eq_self.2 (fun k hk => hfront k hk),
            List.filter_eq_nil_iff.2 (fun k hk => by rw [hpend k hk]; exact Bool.false_ne_true),
            List.append_nil]
      have hfilter_perf2 : st.steps.filter
          (fun k => already_performed (setPerformed wd n) k) = front ++ [n] := by
        rw [hsplit, List.filter_append]
        congr 1
        · apply List.filter_eq_self.2
          intro k hk
          rw [hperf k, if_neg (fun h2 => (hfrontn k hk) h2.symm)]
          exact hfront k hk
        · rw [List.filter_cons_of_pos (by rw [hperf n, if_pos rfl])]
          rw [List.filter_eq_nil_iff.2 (fun k hk => ?_)]
          rw [hperf k, if_neg (fun h2 : n = k => hnrest (h2 ▸ hk)), hpend k (List.mem_cons_of_mem _ hk)]
          exact Bool.false_ne_true
      have htimg_eq : ∀ k, hasTImageOn wd k = already_performed wd k :=
        dirTImage_eq_dirPerformed wd.dirs h.sync
      have htimg_eq2 : ∀ k, hasTImageOn (setPerformed wd n) k
          = already_performed (setPerformed wd n) k := by
        intro k
        apply dirTImage_eq_dirPerformed
        intro d hd
        rcases mem_dirMarkDone _ _ _ hd with h2 | h2
        · exact h.sync d h2
        · rw [h2]
      apply ih _ _ _ (front ++ [n])
      · show st.steps = (front ++ [n]) ++ restp
        rw [hsplit, List.append_assoc]
        rfl
      · intro k hk
        rcases List.mem_append.1 hk with h2 | h2
        · rw [hperf k, if_neg (fun h3 => (hfrontn k h2) h3.symm)]
          exact hfront k h2
        · rcases List.mem_singleton.1 h2 with rfl
          rw [hperf k, if_pos rfl]
      · intro k hk
        rw [hperf k, if_neg (fun h2 : n = k => hnrest (h2 ▸ hk))]
        exact hpend k (List.mem_cons_of_mem _ hk)
      · refine ⟨h.fixed_eq, h.moving_eq, h.steps_eq, h.outdirs_eq, h.pfiles_eq,
          ?_, ?_, ?_, h.nodup, ?_, ?_⟩
        · show st.tfiles ++ [(n, tfilePath n)] = (st.steps.filter _).map _
          rw [hfilter_perf2, List.map_append, h.tfiles_eq, hfilter_perf]
          rfl
        · show st.transformed_images ++ [(n, timagePath n)] = (st.steps.filter _).map _
          rw [List.filter_congr (fun k hk => htimg_eq2 k), hfilter_perf2,
              List.map_append, h.timages_eq,
              List.filter_congr (fun k hk => htimg_eq k), hfilter_perf]
          rfl
        · show (dirMarkDone wd.dirs n).map StepDir.name = st.steps
          rw [dirMarkDone_names wd.dirs n (by
            rw [h.dirnames_eq, hsplit]
            exact List.mem_append_right _ (List.mem_cons_self n restp)),
            h.dirnames_eq]
        · intro d hd
          rcases mem_dirMarkDone _ _ _ hd with h2 | h2
          · exact h.sync d h2
          · rw [h2]
        · refine ⟨front ++ [n], restp, by rw [hsplit, List.append_assoc]; rfl, ?_, ?_⟩
          · intro k hk
            rcases List.mem_append.1 hk with h2 | h2
            · rw [hperf k, if_neg (fun h3 => (hfrontn k h2) h3.symm)]
              exact hfront k h2
            · rcases List.mem_singleton.1 h2 with rfl
              rw [hperf k, if_pos rfl]
          · intro k hk
            rw [hperf k, if_neg (fun h2 : n = k => hnrest (h2 ▸ hk))]
            exact hpend k (List.mem_cons_of_mem _ hk)
    · rw [if_neg heng]
      exact h

/-- Registration preserves coherence. -/
theorem coherent_register (st : RegState) (wd : WorkDir) (engine : String → Bool)
    (h : Coherent st wd) :
    Coherent (register st wd engine).1 (register st wd engine).2.1 := by
  unfold register
  by_cases himg : (st.fixedLoaded && st.movingLoaded) = true
  · rw [if_pos himg]
    obtain ⟨done, todo, hsplit, hdone, htodo⟩ := h.perf_split
    rw [show st.steps = done ++ todo from hsplit,
        runSteps_skip_prefix engine done st wd [] todo hdone]
    exact runSteps_coherent engine todo st wd [] done hsplit hdone htodo h
  · rw [if_neg himg]
    exact h

/-- A fresh overwrite-construction is coherent. -/
theorem coherent_init_overwrite (wd0 : WorkDir) (fixed moving : Bool) :
    Coherent (initRegistration wd0 fixed moving true).1
      (initRegistration wd0 fixed moving true).2 :=
  ⟨rfl, rfl, rfl, rfl, rfl, rfl, rfl, rfl, List.nodup_nil,
    fun d hd => absurd hd (List.not_mem_nil d),
    ⟨[], [], rfl, fun n hn => absurd hn (List.not_mem_nil n),
      fun n hn => absurd hn (List.not_mem_nil n)⟩⟩

/-- Every mutation preserves coherence. -/
theorem coherent_applyOp (s : RegState × WorkDir) (op : RegOp)
    (h : Coherent s.1 s.2) : Coherent (applyOp s op).1 (applyOp s op).2 := by
  cases op with
  | add n => exact coherent_add s.1 s.2 n h
  | remove n => exact coherent_remove s.1 s.2 n h
  | clearSteps => exact coherent_clear s.1 s.2 h
  | run eng => exact coherent_register s.1 s.2 eng h

/-- Every mutation sequence preserves coherence. -/
theorem coherent_applyOps (s : RegState × WorkDir) (ops : List RegOp)
    (h : Coherent s.1 s.2) : Coherent (applyOps s ops).1 (applyOps s ops).2 := by
  induction ops generalizing s with
  | nil => exact h
  | cons op rest ih => exact ih (applyOp s op) (coherent_applyOp s op h)

/-- C5. For every working directory produced by a prior run (an
overwrite-construction followed by any sequence of `add_pfile`,
`remove_step`, `clear` and `register` mutations), constructing the state
manager against that directory without `overwrite` — that is, running
`load_steps` — reconstructs the prior in-memory state exactly: `steps`,
`outdirs`, `pfiles` as persisted, and `tfiles`/`transformed_images` exactly
for the steps whose output files exist on disk, completion being re-derived
from file existence alone. -/
theorem C5_reload_fidelity (wd0 : WorkDir) (fixed moving : Bool) (ops : List RegOp) :
    load_steps (applyOps (initRegistration wd0 fixed moving true) ops).2
      = (applyOps (initRegistration wd0 fixed moving true) ops).1 :=
  load_steps_of_coherent _ _
    (coherent_applyOps _ ops (coherent_init_overwrite wd0 fixed moving))

/-! ### Idempotence of `register` -/

theorem runSteps_frame (engine : String → Bool) (pending : List String) :
    ∀ (st : RegState) (wd : WorkDir) (invoked : List String),
      (runSteps st wd pending engine invoked).1.fixedLoaded = st.fixedLoaded
      ∧ (runSteps st wd pending engine invoked).1.movingLoaded = st.movingLoaded
      ∧ (runSteps st wd pending engine invoked).1.steps = st.steps := by
  induction pending with
  | nil => intro st wd invoked; exact ⟨rfl, rfl, rfl⟩
  | cons n restp ih =>
    intro st wd invoked
    rw [runSteps]
    by_cases hperf : already_performed wd n = true
    · rw [if_pos hperf]
      exact ih st wd invoked
    · rw [if_neg hperf]
      by_cases heng : engine n = true
      · rw [if_pos heng]
        exact ih _ _ _
      · rw [if_neg heng]
        exact ⟨rfl, rfl, rfl⟩

theorem runSteps_perf_mono (engine : String → Bool) (pending : List String) :
    ∀ (st : RegState) (wd : WorkDir) (invoked : List String) (k : String),
      already_performed wd k = true →
      already_performed (runSteps st wd pending engine invoked).2.1 k = true := by
  induction pending with
  | nil => intro st wd invoked k hk; exact hk
  | cons n restp ih =>
    intro st wd invoked k hk
    rw [runSteps]
    by_cases hperf : already_performed wd n = true
    · rw [if_pos hperf]
      exact ih st wd invoked k hk
    · rw [if_neg hperf]
      by_cases heng : engine n = true
      · rw [if_pos heng]
        apply ih
        show dirPerformed (dirMarkDone wd.dirs n) k = true
        rw [dirPerformed_markDone]
        by_cases hnk : n = k
        · rw [if_pos hnk]
        · rw [if_neg hnk]
          exact hk
      · rw [if_neg heng]
        exact hk

theorem runSteps_ok_all_perf (engine : String → Bool) (pending : List String) :
    ∀ (st : RegState) (wd : WorkDir) (invoked : List String),
      (runSteps st wd pending engine invoked).2.2.2 = true →
      ∀ k ∈ pending,
        already_performed (runSteps st wd pending engine invoked).2.1 k = true := by
  induction pending with
  | nil => intro st wd invoked hok k hk; cases hk
  | cons n restp ih =>
    intro st wd invoked hok k hk
    rw [runSteps] at hok ⊢
    by_cases hperf : already_performed wd n = true
    · rw [if_pos hperf] at hok ⊢
      rcases List.mem_cons.1 hk with rfl | h2
      · exact runSteps_perf_mono engine restp st wd invoked k hperf
      · exact ih st wd invoked hok k h2
    · rw [if_neg hperf] at hok ⊢
      by_cases heng : engine n = true
      · rw [if_pos heng] at hok ⊢
        rcases List.mem_cons.1 hk with rfl | h2
        · apply runSteps_perf_mono
          show dirPerformed (dirMarkDone wd.dirs k) k = true
          rw [dirPerformed_markDone, if_pos rfl]
        · exact ih _ _ _ hok k h2
      · rw [if_neg heng] at hok
        exact absurd hok Bool.false_ne_true

theorem runSteps_all_perf (engine : String → Bool) (pending : List String) :
    ∀ (st : RegState) (wd : WorkDir) (invoked : List String),
      (∀ k ∈ pending, already_performed wd k = true) →
      runSteps st wd pending engine invoked = (st, wd, invoked, true) := by
  induction pending with
  | nil => intro st wd invoked hall; rfl
  | cons n restp ih =>
    intro st wd invoked hall
    rw [runSteps, if_pos (hall n (List.mem_cons_self n restp))]
    exact ih st wd invoked (fun k hk => hall k (List.mem_cons_of_mem _ hk))

theorem runSteps_no_invoke (engine : String → Bool) (pending : List String) :
    ∀ (st : RegState) (wd : WorkDir) (invoked : List String) (k : String),
      already_performed wd k = true → k ∉ invoked →
      k ∉ (runSteps st wd pending engine invoked).2.2.1 := by
  induction pending with
  | nil => intro st wd invoked k hk hnin; exact hnin
  | cons n restp ih =>
    intro st wd invoked k hk hnin
    rw [runSteps]
    by_cases hperf : already_performed wd n = true
    · rw [if_pos hperf]
      exact ih st wd invoked k hk hnin
    · rw [if_neg hperf]
      have hkn : k ≠ n := fun h2 => hperf (h2 ▸ hk)
      by_cases heng : engine n = true
      · rw [if_pos heng]
        apply ih
        · show dirPerformed (dirMarkDone wd.dirs n) k = true
          rw [dirPerformed_markDone, if_neg (fun h2 => hkn h2.symm)]
          exact hk
        · intro h2
          rcases List.mem_append.1 h2 with h3 | h3
          · exact hnin h3
          · exact hkn (List.mem_singleton.1 h3)
      · rw [if_neg heng]
        show k ∉ invoked ++ [n]
        intro h2
        rcases List.mem_append.1 h2 with h3 | h3
        · exact hnin h3
        · exact hkn (List.mem_singleton.1 h3)

/-- C6. Registration is idempotent: `already_performed(name)` is true iff
the step's expected transform-file entry exists on disk; `register` never
invokes the engine for a step already performed at call time; and a second
`register` immediately after a successful one performs no external
invocations and returns the state — `tfiles` and `transformed_images`
included — and working directory unchanged. -/
theorem C6_register_idempotent (st : RegState) (wd : WorkDir)
    (engine eng2 : String → Bool) (n : String)
    (hok : (register st wd engine).2.2.2 = true) :
    (already_performed wd n = true ↔ ∃ d, findDir wd n = some d ∧ d.hasTFile = true)
    ∧ (already_performed wd n = true → n ∉ (register st wd engine).2.2.1)
    ∧ register (register st wd engine).1 (register st wd engine).2.1 eng2
        = ((register st wd engine).1, (register st wd engine).2.1, [], true) := by
  have himg : (st.fixedLoaded && st.movingLoaded) = true := by
    by_contra h2
    rw [register, if_neg h2] at hok
    exact Bool.false_ne_true hok
  have hreg : register st wd engine = runSteps st wd st.steps engine [] := by
    rw [register, if_pos himg]
  refine ⟨?_, ?_, ?_⟩
  · show (dirPerformed wd.dirs n = true) ↔ _
    unfold dirPerformed findDir
    cases hf : wd.dirs.find? (fun d => d.name == n) with
    | none =>
      constructor
      · intro h2
        exact absurd h2 Bool.false_ne_true
      · intro ⟨d, hd, _⟩
        cases hd
    | some d =>
      constructor
      · intro h2
        exact ⟨d, rfl, h2⟩
      · intro ⟨d2, hd2, h2⟩
        injection hd2 with hd2
        rw [hd2]
        exact h2
  · intro hperf
    rw [hreg]
    exact runSteps_no_invoke engine st.steps st wd [] n hperf (List.not_mem_nil n)
  · rw [hreg] at hok ⊢
    obtain ⟨hfix, hmov, hsteps⟩ := runSteps_frame engine st.steps st wd []
    have himg2 : ((runSteps st wd st.steps engine []).1.fixedLoaded
        && (runSteps st wd st.steps engine []).1.movingLoaded) = true := by
      rw [hfix, hmov]
      exact himg
    rw [register, if_pos himg2, hsteps]
    exact runSteps_all_perf eng2 st.steps _ _ []
      (runSteps_ok_all_perf engine st.steps st wd [] hok)

/-- The concrete pipeline of the C6 witness: fresh construction with both
images, two derived steps, and one successful registration run. -/
def c6S1 : RegState × WorkDir :=
  applyOps (initRegistration ⟨false, false, [], []⟩ true true true)
    [RegOp.add none, RegOp.add none, RegOp.run (fun _ => true)]

/-- Witness for C6 at a concrete two-step pipeline after one successful
`register` run. -/
theorem C6_witness :
    (already_performed c6S1.2 "1" = true
        ↔ ∃ d, findDir c6S1.2 "1" = some d ∧ d.hasTFile = true)
    ∧ (already_performed c6S1.2 "1" = true
        → "1" ∉ (register c6S1.1 c6S1.2 (fun _ => true)).2.2.1)
    ∧ register (register c6S1.1 c6S1.2 (fun _ => true)).1
          (register c6S1.1 c6S1.2 (fun _ => true)).2.1 (fun _ => false)
        = ((register c6S1.1 c6S1.2 (fun _ => true)).1,
            (register c6S1.1 c6S1.2 (fun _ => true)).2.1, [], true) :=
  C6_register_idempotent c6S1.1 c6S1.2 (fun _ => true) (fun _ => false) "1"
    (by decide)

/-! ### The key-set invariant -/

/-- The C7 invariant: `steps`, `outdirs` and `pfiles` have identical key
sets, and the key sets of `tfiles` and `transformed_images` are exactly the
steps whose outputs exist on disk (hence a subset of `steps`). -/
def KeySetInv (st : RegState) (wd : WorkDir) : Prop :=
  (∀ k, k ∈ st.steps ↔ k ∈ st.outdirs.map Prod.fst)
  ∧ (∀ k, k ∈ st.steps ↔ k ∈ st.pfiles.map Prod.fst)
  ∧ (∀ k, k ∈ st.tfiles.map Prod.fst
      ↔ (k ∈ st.steps ∧ already_performed wd k = true))
  ∧ (∀ k, k ∈ st.transformed_images.map Prod.fst
      ↔ (k ∈ st.steps ∧ hasTImageOn wd k = true))

theorem keys_map_pair (l : List String) (path : String → String) :
    (l.map (fun n => (n, path n))).map Prod.fst = l := by
  rw [List.map_map]
  exact List.map_id _

theorem mem_keys_filter (m : List (String × String)) (n k : String) :
    k ∈ (m.filter (fun kv => decide (kv.1 ≠ n))).map Prod.fst
      ↔ (k ∈ m.map Prod.fst ∧ k ≠ n) := by
  constructor
  · intro h
    obtain ⟨kv, hkv, rfl⟩ := List.mem_map.1 h
    have h2 := List.mem_filter.1 hkv
    exact ⟨List.mem_map_of_mem Prod.fst h2.1, of_decide_eq_true h2.2⟩
  · intro ⟨h1, h2⟩
    obtain ⟨kv, hkv, rfl⟩ := List.mem_map.1 h1
    exact List.mem_map_of_mem Prod.fst
      (List.mem_filter.2 ⟨hkv, decide_eq_true h2⟩)

theorem mem_filter_ne (l : List String) (n k : String) :
    k ∈ l.filter (fun m => decide (m ≠ n)) ↔ (k ∈ l ∧ k ≠ n) := by
  rw [List.mem_filter, decide_eq_true_iff]

/-- Loading steps establishes the key-set invariant from any directory. -/
theorem ksi_load (wd : WorkDir) : KeySetInv (load_steps wd) wd := by
  refine ⟨fun k => ?_, fun k => ?_, fun k => ?_, fun k => ?_⟩
  · show k ∈ wd.stepsFileLines ↔ k ∈ (wd.stepsFileLines.map _).map Prod.fst
    rw [keys_map_pair]
  · show k ∈ wd.stepsFileLines ↔ k ∈ (wd.stepsFileLines.map _).map Prod.fst
    rw [keys_map_pair]
  · show k ∈ ((wd.stepsFileLines.filter _).map _).map Prod.fst ↔ _
    rw [keys_map_pair, List.mem_filter]
    rfl
  · show k ∈ ((wd.stepsFileLines.filter _).map _).map Prod.fst ↔ _
    rw [keys_map_pair, List.mem_filter]
    rfl

/-- Construction establishes the key-set invariant. -/
theorem ksi_init (wd0 : WorkDir) (fixed moving overwrite : Bool) :
    KeySetInv (initRegistration wd0 fixed moving overwrite).1
      (initRegistration wd0 fixed moving overwrite).2 := by
  cases overwrite with
  | true =>
    refine ⟨fun k => ?_, fun k => ?_, fun k => ?_, fun k => ?_⟩ <;>
      simp [initRegistration, already_performed, hasTImageOn, dirPerformed,
        dirTImage, findDir]
  | false =>
    show KeySetInv (load_steps _) _
    exact ksi_load _

/-- Adding a parameter file with a fresh name preserves the key-set invariant. -/
theorem ksi_add_new (st : RegState) (wd : WorkDir) (n : String)
    (h : KeySetInv st wd) (hn : n ∉ st.steps) :
    KeySetInv
      { st with
          steps := st.steps ++ [n],
          outdirs := st.outdirs ++ [(n, outdirPath n)],
          pfiles := st.pfiles ++ [(n, pfilePath n)] }
      { wd with
          stepsFileLines := wd.stepsFileLines ++ [n],
          dirs := dirUpsert wd.dirs ⟨n, false, false⟩ } := by
  obtain ⟨h1, h2, h3, h4⟩ := h
  have hperf : ∀ k, dirPerformed (dirUpsert wd.dirs ⟨n, false, false⟩) k
      = if n = k then false else already_performed wd k :=
    fun k => dirPerformed_dirUpsert_fresh wd.dirs n k
  have htimg : ∀ k, dirTImage (dirUpsert wd.dirs ⟨n, false, false⟩) k
      = if n = k then false else hasTImageOn wd k :=
    fun k => dirTImage_dirUpsert_fresh wd.dirs n k
  refine ⟨fun k => ?_, fun k => ?_, fun k => ?_, fun k => ?_⟩
  · show k ∈ st.steps ++ [n] ↔ k ∈ (st.outdirs ++ [(n, outdirPath n)]).map Prod.fst
    rw [List.map_append, List.mem_append, List.mem_append, h1 k]
    rfl
  · show k ∈ st.steps ++ [n] ↔ k ∈ (st.pfiles ++ [(n, pfilePath n)]).map Prod.fst
    rw [List.map_append, List.mem_append, List.mem_append, h2 k]
    rfl
  · show k ∈ st.tfiles.map Prod.fst
        ↔ (k ∈ st.steps ++ [n] ∧ dirPerformed (dirUpsert wd.dirs ⟨n, false, false⟩) k = true)
    rw [hperf k]
    by_cases hkn : n = k
    · rw [if_pos hkn]
      subst hkn
      constructor
      · intro h5
        exact absurd ((h3 n).1 h5).1 hn
      · intro ⟨_, h5⟩
        exact absurd h5 Bool.false_ne_true
    · rw [if_neg hkn, h3 k, List.mem_append]
      constructor
      · intro ⟨h5, h6⟩
        exact ⟨Or.inl h5, h6⟩
      · intro ⟨h5, h6⟩
        rcases h5 with h5 | h5
        · exact ⟨h5, h6⟩
        · exact absurd (List.mem_singleton.1 h5).symm hkn
  · show k ∈ st.transformed_images.map Prod.fst
        ↔ (k ∈ st.steps ++ [n] ∧ dirTImage (dirUpsert wd.dirs ⟨n, false, false⟩) k = true)
    rw [htimg k]
    by_cases hkn : n = k
    · rw [if_pos hkn]
      subst hkn
      constructor
      · intro h5
        exact absurd ((h4 n).1 h5).1 hn
      · intro ⟨_, h5⟩
        exact absurd h5 Bool.false_ne_true
    · rw [if_neg hkn, h4 k, List.mem_append]
      constructor
      · intro ⟨h5, h6⟩
        exact ⟨Or.inl h5, h6⟩
      · intro ⟨h5, h6⟩
        rcases h5 with h5 | h5
        · exact ⟨h5, h6⟩
        · exact absurd (List.mem_singleton.1 h5).symm hkn

/-- Adding a parameter file preserves the key-set invariant. -/
theorem ksi_add (st : RegState) (wd : WorkDir) (name : Option String)
    (h : KeySetInv st wd) :
    KeySetInv (add_pfile st wd name).1 (add_pfile st wd name).2 := by
  unfold add_pfile
  cases name with
  | some n0 =>
    dsimp only
    by_cases hn : n0 ∈ st.steps
    · rw [if_pos hn]
      exact h
    · rw [if_neg hn]
      exact ksi_add_new st wd n0 h hn
  | none =>
    dsimp only
    cases hf : freshName st.steps with
    | none => exact h
    | some n => exact ksi_add_new st wd n h (freshName_not_mem _ _ hf)

/-- Removing a step preserves the key-set invariant. -/
theorem ksi_remove (st : RegState) (wd : WorkDir) (n : String)
    (h : KeySetInv st wd) :
    KeySetInv (remove_step st wd n).1 (remove_step st wd n).2 := by
  unfold remove_step
  by_cases hn : n ∈ st.steps
  · rw [if_pos hn]
    obtain ⟨h1, h2, h3, h4⟩ := h
    refine ⟨fun k => ?_, fun k => ?_, fun k => ?_, fun k => ?_⟩
    · show k ∈ st.steps.filter _ ↔ k ∈ (st.outdirs.filter _).map Prod.fst
      rw [mem_filter_ne, mem_keys_filter, h1 k]
    · show k ∈ st.steps.filter _ ↔ k ∈ (st.pfiles.filter _).map Prod.fst
      rw [mem_filter_ne, mem_keys_filter, h2 k]
    · show k ∈ (st.tfiles.filter _).map Prod.fst
          ↔ (k ∈ st.steps.filter _
              ∧ dirPerformed (wd.dirs.filter (fun d => decide (d.name ≠ n))) k = true)
      rw [mem_keys_filter, mem_filter_ne, h3 k]
      by_cases hkn : k = n
      · subst hkn
        constructor
        · intro ⟨_, h5⟩
          exact absurd rfl h5
        · intro ⟨⟨_, h5⟩, _⟩
          exact absurd rfl h5
      · rw [dirPerformed_filter_ne wd.dirs n k hkn]
        constructor
        · intro ⟨⟨h5, h6⟩, h7⟩
          exact ⟨⟨h5, h7⟩, h6⟩
        · intro ⟨⟨h5, h7⟩, h6⟩
          exact ⟨⟨h5, h6⟩, h7⟩
    · show k ∈ (st.transformed_images.filter _).map Prod.fst
          ↔ (k ∈ st.steps.filter _
              ∧ dirTImage (wd.dirs.filter (fun d => decide (d.name ≠ n))) k = true)
      rw [mem_keys_filter, mem_filter_ne, h4 k]
      by_cases hkn : k = n
      · subst hkn
        constructor
        · intro ⟨_, h5⟩
          exact absurd rfl h5
        · intro ⟨⟨_, h5⟩, _⟩
          exact absurd rfl h5
      · rw [dirTImage_filter_ne wd.dirs n k hkn]
        constructor
        · intro ⟨⟨h5, h6⟩, h7⟩
          exact ⟨⟨h5, h7⟩, h6⟩
        · intro ⟨⟨h5, h7⟩, h6⟩
          exact ⟨⟨h5, h6⟩, h7⟩
  · rw [if_neg hn]
    exact h

/-- Clearing preserves (re-establishes) the key-set invariant. -/
theorem ksi_clear (st : RegState) (wd : WorkDir) :
    KeySetInv (clear_reg st wd).1 (clear_reg st wd).2 := by
  refine ⟨fun k => ?_, fun k => ?_, fun k => ?_, fun k => ?_⟩ <;>
    simp [clear_reg]

/-- The `register` loop preserves the key-set invariant. -/
theorem ksi_runSteps (engine : String → Bool) (pending : List String) :
    ∀ (st : RegState) (wd : WorkDir) (invoked : List String),
      (∀ k ∈ pending, k ∈ st.steps) →
      KeySetInv st wd →
      KeySetInv (runSteps st wd pending engine invoked).1
        (runSteps st wd pending engine invoked).2.1 := by
  induction pending with
  | nil => intro st wd invoked hsub h; exact h
  | cons n restp ih =>
    intro st wd invoked hsub h
    rw [runSteps]
    by_cases hperf : already_performed wd n = true
    · rw [if_pos hperf]
      exact ih st wd invoked (fun k hk => hsub k (List.mem_cons_of_mem _ hk)) h
    · rw [if_neg hperf]
      by_cases heng : engine n = true
      · rw [if_pos heng]
        apply ih
        · intro k hk
          exact hsub k (List.mem_cons_of_mem _ hk)
        · obtain ⟨h1, h2, h3, h4⟩ := h
          have hns : n ∈ st.steps := hsub n (List.mem_cons_self n restp)
          have hperf2 : ∀ k, dirPerformed (dirMarkDone wd.dirs n) k
              = if n = k then true else already_performed wd k :=
            fun k => dirPerformed_markDone wd.dirs n k
          have htimg2 : ∀ k, dirTImage (dirMarkDone wd.dirs n) k
              = if n = k then true else hasTImageOn wd k :=
            fun k => dirTImage_markDone wd.dirs n k
          refine ⟨h1, h2, fun k => ?_, fun k => ?_⟩
          · show k ∈ (st.tfiles ++ [(n, tfilePath n)]).map Prod.fst
                ↔ (k ∈ st.steps ∧ dirPerformed (dirMarkDone wd.dirs n) k = true)
            rw [List.map_append, List.mem_append, h3 k, hperf2 k]
            by_cases hkn : n = k
            · subst hkn
              simp [hns]
            · rw [if_neg hkn]
              constructor
              · intro h5
                rcases h5 with h5 | h5
                · exact h5
                · exact absurd (List.mem_singleton.1 h5).symm hkn
              · intro h5
                exact Or.inl h5
          · show k ∈ (st.transformed_images ++ [(n, timagePath n)]).map Prod.fst
                ↔ (k ∈ st.steps ∧ dirTImage (dirMarkDone wd.dirs n) k = true)
            rw [List.map_append, List.mem_append, h4 k, htimg2 k]
            by_cases hkn : n = k
            · subst hkn
              simp [hns]
            · rw [if_neg hkn]
              constructor
              · intro h5
                rcases h5 with h5 | h5
                · exact h5
                · exact absurd (List.mem_singleton.1 h5).symm hkn
              · intro h5
                exact Or.inl h5
      · rw [if_neg heng]
        exact h

/-- Registration preserves the key-set invariant. -/
theorem ksi_register (st : RegState) (wd : WorkDir) (engine : String → Bool)
    (h : KeySetInv st wd) :
    KeySetInv (register st wd engine).1 (register st wd engine).2.1 := by
  unfold register
  by_cases himg : (st.fixedLoaded && st.movingLoaded) = true
  · rw [if_pos himg]
    exact ksi_runSteps engine st.steps st wd [] (fun k hk => hk) h
  · rw [if_neg himg]
    exact h

/-- Every mutation preserves the key-set invariant. -/
theorem ksi_applyOp (s : RegState × WorkDir) (op : RegOp)
    (h : KeySetInv s.1 s.2) : KeySetInv (applyOp s op).1 (applyOp s op).2 := by
  cases op with
  | add n => exact ksi_add s.1 s.2 n h
  | remove n => exact ksi_remove s.1 s.2 n h
  | clearSteps => exact ksi_clear s.1 s.2
  | run eng => exact ksi_register s.1 s.2 eng h

/-- C7. After construction (with or without `overwrite`, from any
working directory) and any sequence of mutations (`add_pfile`,
`remove_step`, `clear`, `register`), the mappings `steps`, `outdirs` and
`pfiles` have identical key sets, and the key sets of `tfiles` and
`transformed_images` are exactly the steps whose outputs exist on disk —
in particular a subset of `steps`. -/
theorem C7_keyset_invariant (wd0 : WorkDir) (fixed moving overwrite : Bool)
    (ops : List RegOp) :
    KeySetInv (applyOps (initRegistration wd0 fixed moving overwrite) ops).1
      (applyOps (initRegistration wd0 fixed moving overwrite) ops).2 := by
  have hstart := ksi_init wd0 fixed moving overwrite
  generalize hgen : initRegistration wd0 fixed moving overwrite = s at hstart ⊢
  clear hgen
  induction ops generalizing s with
  | nil => exact hstart
  | cons op rest ih => exact ih (applyOp s op) (ksi_applyOp s op hstart)

/-- C4. Constructing against any populated working directory with
`overwrite = true` (and no new images, as in `test_load_overwrite`) yields a
state with zero steps and empty `pfiles`/`outdirs` mappings, and removes the
previously written fixed-image and moving-image copies (and all step
subdirectories) from disk. -/
theorem C4_overwrite_clears (wd : WorkDir) :
    (initRegistration wd false false true).1.steps = []
    ∧ (initRegistration wd false false true).1.pfiles = []
    ∧ (initRegistration wd false false true).1.outdirs = []
    ∧ (initRegistration wd false false true).2.hasFixed = false
    ∧ (initRegistration wd false false true).2.hasMoving = false
    ∧ (initRegistration wd false false true).2.dirs = [] :=
  ⟨rfl, rfl, rfl, rfl, rfl, rfl⟩

/-! ## Structure-set transform (Registration.transform on a StructureSet) -/

/-- A binary region mask (volumetric boolean array of the collaborator). -/
abbrev Mask := List (List (List Bool))

/-- A region: a named binary mask (the region/ROI collaborator). -/
structure SpatialRoi where
  name : String
  mask : Mask
deriving DecidableEq, Repr

/-- Modelled from the spec: for a structure-set input, `transform` applies
the transform-application engine (a black box taking and returning a mask)
independently to every contained region and reassembles a structure-set with
the same region names. -/
def transformStructureSet (apply : Mask → Mask) (rois : List SpatialRoi) :
    List SpatialRoi :=
  rois.map (fun r => { r with mask := apply r.mask })

/-- C8. Transforming a structure-set with N named regions yields a
structure-set with exactly N regions carrying the same names in the same
order, each region being the independent transform of the corresponding
input region (contents may differ). -/
theorem C8_transform_structure_set (apply : Mask → Mask) (rois : List SpatialRoi) :
    (transformStructureSet apply rois).length = rois.length
    ∧ (transformStructureSet apply rois).map SpatialRoi.name
        = rois.map SpatialRoi.name
    ∧ ∀ (i : Nat), (transformStructureSet apply rois)[i]?
        = (rois[i]?).map (fun r => { r with mask := apply r.mask }) := by
  refine ⟨List.length_map _ _, ?_, fun i => List.getElem?_map _ _ _⟩
  rw [transformStructureSet, List.map_map]
  rfl

/-! ## SyntheticImage (translated from `src/skrt/simulation.py`)

The geometric mask arrays of the collaborating `Image`/`ROI` classes are
represented symbolically: an ROI's `data` is the list of shape geometries
whose indicator sum it is (a shape's `get_data(coords)` is determined by its
geometry and the image's fixed coordinate grid, so re-evaluation is captured
by re-listing the current geometries). -/

/-- Insertion-ordered association update (Python dict assignment). -/
def aupdate {α : Type} (m : List (String × α)) (k : String) (v : α) :
    List (String × α) :=
  match m with
  | [] => [(k, v)]
  | (k2, w) :: rest => if k2 = k then (k, v) :: rest else (k2, w) :: aupdate rest k v

theorem alookup_aupdate_self {α : Type} (m : List (String × α)) (k : String)
    (v : α) : alookup (aupdate m k v) k = some v := by
  induction m with
  | nil =>
    show (if k = k then some v else alookup [] k) = some v
    rw [if_pos rfl]
  | cons kv rest ih =>
    obtain ⟨k2, w⟩ := kv
    show alookup (if k2 = k then (k, v) :: rest else (k2, w) :: aupdate rest k v) k
        = some v
    by_cases h2 : k2 = k
    · rw [if_pos h2]
      show (if k = k then some v else alookup rest k) = some v
      rw [if_pos rfl]
    · rw [if_neg h2]
      show (if k2 = k then some w else alookup (aupdate rest k v) k) = some v
      rw [if_neg h2]
      exact ih

/-- Geometry of one shape, as constructed by the simulation module
(`Cuboid` stores a side-length triple and a centre, `Sphere` a radius and a
centre). -/
inductive ShapeDesc
  | cuboid (side_length : List ℚ) (centre : List ℚ)
  | sphere (radius : ℚ) (centre : List ℚ)
deriving DecidableEq, Repr

/-- One shape object: its `name` and `intensity` attributes plus geometry. -/
structure ShapeRec where
  name : Option String
  intensity : ℚ
  desc : ShapeDesc
deriving DecidableEq, Repr

/-- A `ShapeGroup`: a named list of member shapes. -/
structure ShapeGroup where
  name : String
  shapes : List ShapeRec
deriving DecidableEq, Repr

/-- An entry of `roi_shapes`: a single shape object, or an alias of the
named `ShapeGroup` stored in `groups` (Python stores the same object in
both dicts). -/
inductive RoiShape
  | single (s : ShapeRec)
  | groupRef (g : String)
deriving DecidableEq, Repr

/-- Symbolic mask data of an ROI: the geometries whose indicator sum it is. -/
abbrev RoiData := List ShapeDesc

/-- The ROI collaborator: mask data, name, affine. -/
structure ROI where
  data : RoiData
  name : String
  affine : List ℚ × List ℚ
deriving DecidableEq, Repr

/-- The mutable state of a `SyntheticImage`. -/
structure SyntheticImage where
  shape : List Nat
  voxel_size : List ℚ
  origin : List ℚ
  min_hu : ℚ
  max_hu : ℚ
  bg_intensity : ℚ
  shapes : List ShapeRec
  roi_shapes : List (String × RoiShape)
  rois : List (String × ROI)
  groups : List (String × ShapeGroup)
  shape_count : List (String × Nat)
deriving DecidableEq, Repr

/-- Constructor `SyntheticImage.__init__` without noise or file output: axes 0 and 1 of
the requested shape are swapped, voxel sizes are made positive, and with
`noise_std = None` the display range is `[-20, 0]`. -/
def mkSyntheticImage (shape : List Nat) (origin : List ℚ) (voxel_size : List ℚ)
    (intensity : ℚ) : SyntheticImage :=
  { shape := [shape.getD 1 0, shape.getD 0 0, shape.getD 2 0],
    voxel_size := voxel_size.map (fun v => |v|),
    origin := origin,
    max_hu := 0,
    min_hu := -20,
    bg_intensity := intensity,
    shapes := [], roi_shapes := [], rois := [], groups := [], shape_count := [] }

/-- The collaborator `Image.get_affine`, modelled as the image's voxel-size
and origin pair (the data the affine is built from). -/
def get_affine (img : SyntheticImage) : List ℚ × List ℚ :=
  (img.voxel_size, img.origin)

/-- The collaborator `Image.get_centre`: the geometric centre of the image
volume in mm. -/
def get_centre (img : SyntheticImage) : List ℚ :=
  (List.range 3).map (fun i =>
    img.origin.getD i 0
      + img.voxel_size.getD i 1 * (((img.shape.getD i 1 : ℚ) - 1) / 2))

/-- A scalar-or-sequence argument (`skrt.core.to_list` input). -/
inductive ScalarOrList
  | scalar (v : ℚ)
  | list (l : List ℚ)
deriving DecidableEq, Repr

/-- The collaborator `skrt.core.to_list`: a scalar becomes a three-vector, a
sequence passes through. -/
def to_list : ScalarOrList → List ℚ
  | ScalarOrList.scalar v => [v, v, v]
  | ScalarOrList.list l => l

/-- Insertion `self.shapes.append(shape)` or `self.shapes.insert(0, shape)`. -/
def insertShape (shapes : List ShapeRec) (s : ShapeRec) (above : Bool) :
    List ShapeRec :=
  if above then shapes ++ [s] else s :: shapes

/-- Method `SyntheticImage.add_shape`, translated from the source.  The result pairs
the new state with the returned ROI (`Except.error` models the `KeyError`
Python raises from `self.rois[shape.name]` when a grouped shape carries no
name matching an ROI key). -/
def add_shape (img0 : SyntheticImage) (s : ShapeRec) (shape_type : String)
    (is_roi : Option Bool) (above : Bool) (group : Option String) :
    SyntheticImage × Except String (Option ROI) :=
  let roiFlag : Option Bool :=
    if is_roi = none ∧ (group.isSome ∨ s.name.isSome) then some true else is_roi
  if roiFlag = some true then
    match group with
    | some g =>
      let img1 := { img0 with shapes := insertShape img0.shapes s above }
      let img2 :=
        match alookup img0.groups g with
        | none =>
          { img1 with
              groups := aupdate img1.groups g ⟨g, [s]⟩,
              roi_shapes := aupdate img1.roi_shapes g (RoiShape.groupRef g),
              rois := aupdate img1.rois g ⟨[s.desc], g, get_affine img1⟩ }
        | some grp =>
          { img1 with
              groups := aupdate img1.groups g { grp with shapes := grp.shapes ++ [s] } }
      let img3 := { img2 with
          min_hu := min s.intensity img2.min_hu,
          max_hu := max s.intensity img2.max_hu }
      match s.name with
      | none => (img3, Except.error "KeyError")
      | some nm =>
        match alookup img3.rois nm with
        | some r => (img3, Except.ok (some r))
        | none => (img3, Except.error "KeyError")
    | none =>
      let cnt :=
        match alookup img0.shape_count shape_type with
        | none => 1
        | some c => c + 1
      let nm :=
        match s.name with
        | some nm => nm
        | none => shape_type ++ toString cnt
      let s2 := { s with name := some nm }
      let img1 := { img0 with
          shapes := insertShape img0.shapes s2 above,
          shape_count := aupdate img0.shape_count shape_type cnt,
          roi_shapes := aupdate img0.roi_shapes nm (RoiShape.single s2),
          rois := aupdate img0.rois nm ⟨[s2.desc], nm, get_affine img0⟩ }
      let img2 := { img1 with
          min_hu := min s.intensity img1.min_hu,
          max_hu := max s.intensity img1.max_hu }
      match alookup img2.rois nm with
      | some r => (img2, Except.ok (some r))
      | none => (img2, Except.error "KeyError")
  else
    let img1 := { img0 with shapes := insertShape img0.shapes s above }
    let img2 := { img1 with
        min_hu := min s.intensity img1.min_hu,
        max_hu := max s.intensity img1.max_hu }
    (img2, Except.ok none)

/-- Method `SyntheticImage.add_cuboid`, translated from the source: default the
centre to the image centre, normalise the side length to a triple, build the
`Cuboid` (whose constructor applies `to_list` again) and hand it to
`add_shape`. -/
def add_cuboid (img : SyntheticImage) (side_length : ScalarOrList)
    (centre : Option (List ℚ)) (intensity : ℚ) (is_roi : Option Bool)
    (name : Option String) (above : Bool) (group : Option String) :
    SyntheticImage × Except String (Option ROI) :=
  let c :=
    match centre with
    | none => get_centre img
    | some c => c
  let sl := to_list side_length
  let cuboid : ShapeRec :=
    ⟨name, intensity, ShapeDesc.cuboid (to_list (ScalarOrList.list sl)) c⟩
  add_shape img cuboid "cuboid" is_roi above group

/-- Method `SyntheticImage.add_cube`, translated from the source: it forwards every
argument unchanged to `add_cuboid`. -/
def add_cube (img : SyntheticImage) (side_length : ScalarOrList)
    (centre : Option (List ℚ)) (intensity : ℚ) (is_roi : Option Bool)
    (name : Option String) (above : Bool) (group : Option String) :
    SyntheticImage × Except String (Option ROI) :=
  add_cuboid img side_length centre intensity is_roi name above group

/-- Method `SyntheticImage.add_sphere`, translated from the source. -/
def add_sphere (img : SyntheticImage) (radius : ℚ) (centre : Option (List ℚ))
    (intensity : ℚ) (is_roi : Option Bool) (name : Option String)
    (above : Bool) (group : Option String) :
    SyntheticImage × Except String (Option ROI) :=
  let c :=
    match centre with
    | none => get_centre img
    | some c => c
  let sphere : ShapeRec := ⟨name, intensity, ShapeDesc.sphere radius c⟩
  add_shape img sphere "sphere" is_roi above group

/-- Evaluation of `roi_shapes[name].get_data(coords)`, symbolically: a single shape yields
its own geometry, a group yields its members' geometries (`ShapeGroup
.get_data` starts from `shapes[0]`, raising `IndexError` on an empty group,
and sums the rest). -/
def roiShapeData (img : SyntheticImage) (rs : RoiShape) : Except String RoiData :=
  match rs with
  | RoiShape.single s => Except.ok [s.desc]
  | RoiShape.groupRef g =>
    match alookup img.groups g with
    | none => Except.error "KeyError"
    | some grp =>
      match grp.shapes with
      | [] => Except.error "IndexError"
      | _ => Except.ok (grp.shapes.map ShapeRec.desc)

/-- Method `SyntheticImage.update_roi`, translated from the source:
`self.rois[name].data = self.roi_shapes[name].get_data(self.get_coords())`. -/
def update_roi (img : SyntheticImage) (name : String) :
    Except String SyntheticImage :=
  match alookup img.roi_shapes name with
  | none => Except.error "KeyError"
  | some rs =>
    match roiShapeData img rs with
    | Except.error e => Except.error e
    | Except.ok d =>
      match alookup img.rois name with
      | none => Except.error "KeyError"
      | some r =>
        Except.ok { img with rois := aupdate img.rois name { r with data := d } }

/-- Method `SyntheticImage.get_roi`, translated from the source: an unknown name
prints a message and returns `None` without touching the state; a known name
first refreshes that ROI's data and then returns the ROI object. -/
def get_roi (img : SyntheticImage) (name : String) :
    SyntheticImage × Except String (Option ROI) :=
  if alookup img.rois name = none then (img, Except.ok none)
  else
    match update_roi img name with
    | Except.error e => (img, Except.error e)
    | Except.ok img2 => (img2, Except.ok (alookup img2.rois name))

/-- C9. Function `add_cube` is a pure alias of `add_cuboid`: for every state and
every argument tuple, both produce exactly the same state change and return
value. -/
theorem C9_add_cube_is_add_cuboid (img : SyntheticImage)
    (side_length : ScalarOrList) (centre : Option (List ℚ)) (intensity : ℚ)
    (is_roi : Option Bool) (name : Option String) (above : Bool)
    (group : Option String) :
    add_cube img side_length centre intensity is_roi name above group
      = add_cuboid img side_length centre intensity is_roi name above group := rfl

/-- C10. Lookup `get_roi` on an absent name returns `None` (after printing a
message) with the state unchanged and no exception; on a present name it
first refreshes that ROI's data from its current shape geometry and then
returns the refreshed ROI object. -/
theorem C10_get_roi (img : SyntheticImage) (name : String) :
    (alookup img.rois name = none → get_roi img name = (img, Except.ok none))
    ∧ (∀ r : ROI, alookup img.rois name = some r →
        ∀ rs : RoiShape, alookup img.roi_shapes name = some rs →
        ∀ d : RoiData, roiShapeData img rs = Except.ok d →
        get_roi img name
          = ({ img with rois := aupdate img.rois name { r with data := d } },
              Except.ok (some { r with data := d }))) := by
  constructor
  · intro h
    unfold get_roi
    rw [if_pos h]
  · intro r hr rs hrs d hd
    unfold get_roi
    rw [if_neg (by rw [hr]; exact fun h2 => Option.noConfusion h2)]
    unfold update_roi
    rw [hrs]
    dsimp only
    rw [hd]
    dsimp only
    rw [hr]
    dsimp only
    rw [alookup_aupdate_self]

/-- Witness for C4 at a concrete populated working directory. -/
theorem C4_witness :
    (initRegistration ⟨true, true, ["1", "2"], [⟨"1", true, true⟩, ⟨"2", false, false⟩]⟩
        false false true).1.steps = []
    ∧ (initRegistration ⟨true, true, ["1", "2"], [⟨"1", true, true⟩, ⟨"2", false, false⟩]⟩
        false false true).1.pfiles = []
    ∧ (initRegistration ⟨true, true, ["1", "2"], [⟨"1", true, true⟩, ⟨"2", false, false⟩]⟩
        false false true).1.outdirs = []
    ∧ (initRegistration ⟨true, true, ["1", "2"], [⟨"1", true, true⟩, ⟨"2", false, false⟩]⟩
        false false true).2.hasFixed = false
    ∧ (initRegistration ⟨true, true, ["1", "2"], [⟨"1", true, true⟩, ⟨"2", false, false⟩]⟩
        false false true).2.hasMoving = false
    ∧ (initRegistration ⟨true, true, ["1", "2"], [⟨"1", true, true⟩, ⟨"2", false, false⟩]⟩
        false false true).2.dirs = [] :=
  C4_overwrite_clears ⟨true, true, ["1", "2"], [⟨"1", true, true⟩, ⟨"2", false, false⟩]⟩

/-- Witness for C5 at a concrete run: two steps added and one registration
performed, then reloaded from disk. -/
theorem C5_witness :
    load_steps (applyOps (initRegistration ⟨false, false, [], []⟩ true true true)
        [RegOp.add none, RegOp.add none, RegOp.run (fun _ => true)]).2
      = (applyOps (initRegistration ⟨false, false, [], []⟩ true true true)
        [RegOp.add none, RegOp.add none, RegOp.run (fun _ => true)]).1 :=
  C5_reload_fidelity ⟨false, false, [], []⟩ true true
    [RegOp.add none, RegOp.add none, RegOp.run (fun _ => true)]

/-- Witness for C7 at a concrete mutation sequence. -/
theorem C7_witness :
    KeySetInv (applyOps (initRegistration ⟨false, false, [], []⟩ true true true)
        [RegOp.add none, RegOp.add none, RegOp.run (fun _ => true),
          RegOp.remove "1"]).1
      (applyOps (initRegistration ⟨false, false, [], []⟩ true true true)
        [RegOp.add none, RegOp.add none, RegOp.run (fun _ => true),
          RegOp.remove "1"]).2 :=
  C7_keyset_invariant ⟨false, false, [], []⟩ true true true
    [RegOp.add none, RegOp.add none, RegOp.run (fun _ => true), RegOp.remove "1"]

/-- Witness for C8 at a concrete two-region structure set. -/
theorem C8_witness :
    (transformStructureSet (fun _ => [[[true]]])
        [⟨"cube", [[[false]]]⟩, ⟨"sphere", [[[false]]]⟩]).length
      = ([⟨"cube", [[[false]]]⟩, ⟨"sphere", [[[false]]]⟩] : List SpatialRoi).length
    ∧ (transformStructureSet (fun _ => [[[true]]])
        [⟨"cube", [[[false]]]⟩, ⟨"sphere", [[[false]]]⟩]).map SpatialRoi.name
      = ([⟨"cube", [[[false]]]⟩, ⟨"sphere", [[[false]]]⟩] : List SpatialRoi).map
          SpatialRoi.name
    ∧ ∀ (i : Nat), (transformStructureSet (fun _ => [[[true]]])
        [⟨"cube", [[[false]]]⟩, ⟨"sphere", [[[false]]]⟩])[i]?
      = (([⟨"cube", [[[false]]]⟩, ⟨"sphere", [[[false]]]⟩] : List SpatialRoi)[i]?).map
          (fun r => { r with mask := (fun _ => [[[true]]]) r.mask }) :=
  C8_transform_structure_set (fun _ => [[[true]]])
    [⟨"cube", [[[false]]]⟩, ⟨"sphere", [[[false]]]⟩]

/-- Witness for C9 at a concrete image and argument tuple. -/
theorem C9_witness :
    add_cube (mkSyntheticImage [10, 12, 8] [0, 0, 0] [1, 1, 1] (-1024))
        (ScalarOrList.scalar 2) (some [4, 4, 4]) 0 none (some "cube") true none
      = add_cuboid (mkSyntheticImage [10, 12, 8] [0, 0, 0] [1, 1, 1] (-1024))
        (ScalarOrList.scalar 2) (some [4, 4, 4]) 0 none (some "cube") true none :=
  C9_add_cube_is_add_cuboid (mkSyntheticImage [10, 12, 8] [0, 0, 0] [1, 1, 1] (-1024))
    (ScalarOrList.scalar 2) (some [4, 4, 4]) 0 none (some "cube") true none

/-- The synthetic image of the C10 witness: a 10×12×8 blank image with one
named cube, as in the registration test fixtures. -/
def simTestImg : SyntheticImage :=
  (add_cube (mkSyntheticImage [10, 12, 8] [0, 0, 0] [1, 1, 1] (-1024))
    (ScalarOrList.scalar 2) (some [4, 4, 4]) 0 none (some "cube") true none).1

/-- The geometry of the witness cube. -/
def simCubeDesc : ShapeDesc := ShapeDesc.cuboid [2, 2, 2] [4, 4, 4]

/-- The ROI object stored for the witness cube. -/
def simCubeRoi : ROI := ⟨[simCubeDesc], "cube", ([1, 1, 1], [0, 0, 0])⟩

/-- Witness for C10 at the concrete image: the present name refreshes and
returns the cube's ROI. -/
theorem C10_witness :
    get_roi simTestImg "cube"
      = ({ simTestImg with
            rois := aupdate simTestImg.rois "cube"
              { simCubeRoi with data := [simCubeDesc] } },
          Except.ok (some { simCubeRoi with data := [simCubeDesc] })) :=
  (C10_get_roi simTestImg "cube").2 simCubeRoi (by decide)
    (RoiShape.single ⟨some "cube", 0, simCubeDesc⟩) (by decide)
    [simCubeDesc] rfl

end SkrtSpec
